import Mathlib

/-!
# Verification of the Timely task-hierarchy core

Shallow embedding of the Timely repository's core logic:

* `timely-lib/src/lib.rs` — the `Todo` record, the `TodoHierarchy` forest,
  `build_hierarchy`, `toggle_with_children`, `get_hierarchy_by_id`;
* `src/main.rs` — the server's `delete_todo` cascade (recursive SQL CTE),
  `authenticate`, `extract_provided` and the `get_todos` endpoint gate;
* `timely-app/src/main.rs` — the GUI client's `TodoHierarchy` (no cached
  date string) and `add_to_hierarchy`.

Machine integers (`i64` ids) are modelled as `Int`; no arithmetic is ever
performed on them, only equality tests, so no overflow wrapping is needed.
`time::Date` is modelled as a year/month/day record (only its components
are read, via `convert_date_to_string`).
-/

/-- Models `time::Date`: only the year/month/day components are observed by
the repository (`date.year()`, `date.month() as u8`, `date.day()`). -/
structure Date where
  year : Int
  month : Nat
  day : Nat
deriving DecidableEq

/-- `convert_date_to_string` from `timely-lib/src/lib.rs`:
`format!("{}-{}-{}", date.year(), date.month() as u8, date.day())`. -/
def convert_date_to_string (date : Date) : String :=
  toString date.year ++ "-" ++ toString date.month ++ "-" ++ toString date.day

/-- The `Todo` struct from `timely-lib/src/lib.rs`. -/
structure Todo where
  id : Int
  name : String
  done : Bool
  description : Option String
  parent_id : Option Int
  date : Option Date
deriving DecidableEq

/-- The `TodoHierarchy` struct from `timely-lib/src/lib.rs`: a task, a cached
rendered date, and an ordered list of child subtrees.  (A recursive struct,
so it is an inductive type here.) -/
inductive TodoHierarchy where
  | mk (todo : Todo) (todo_date : Option String) (children : List TodoHierarchy)

def TodoHierarchy.todo : TodoHierarchy → Todo
  | .mk t _ _ => t

def TodoHierarchy.todo_date : TodoHierarchy → Option String
  | .mk _ d _ => d

def TodoHierarchy.children : TodoHierarchy → List TodoHierarchy
  | .mk _ _ cs => cs

@[simp] theorem TodoHierarchy.todo_mk (t : Todo) (d : Option String)
    (cs : List TodoHierarchy) : (TodoHierarchy.mk t d cs).todo = t := rfl

@[simp] theorem TodoHierarchy.todo_date_mk (t : Todo) (d : Option String)
    (cs : List TodoHierarchy) : (TodoHierarchy.mk t d cs).todo_date = d := rfl

@[simp] theorem TodoHierarchy.children_mk (t : Todo) (d : Option String)
    (cs : List TodoHierarchy) : (TodoHierarchy.mk t d cs).children = cs := rfl

/-- `TodoHierarchy::new` from `timely-lib/src/lib.rs`. -/
def TodoHierarchy.new (todo : Todo) : TodoHierarchy :=
  .mk todo (todo.date.map convert_date_to_string) []

/-- Subtree-membership-based induction principle for the nested inductive. -/
theorem TodoHierarchy.my_ind {motive : TodoHierarchy → Prop}
    (step : ∀ t d cs, (∀ c ∈ cs, motive c) → motive (TodoHierarchy.mk t d cs)) :
    ∀ h, motive h
  | .mk t d cs => step t d cs (fun c hc => TodoHierarchy.my_ind step c)
termination_by h => sizeOf h
decreasing_by
  have := List.sizeOf_lt_of_mem hc
  simp only [TodoHierarchy.mk.sizeOf_spec]
  omega

mutual

/-- `TodoHierarchy::toggle_with_children` from `timely-lib/src/lib.rs`
(also duplicated verbatim in `timely-app/src/main.rs`): set this node's
`done` to `state` and recursively set every child's subtree likewise. -/
def toggle_with_children : TodoHierarchy → Bool → TodoHierarchy
  | .mk t d cs, state => .mk { t with done := state } d (toggle_children cs state)

/-- The `for child in &mut self.children { child.toggle_with_children(state) }`
loop of `toggle_with_children`. -/
def toggle_children : List TodoHierarchy → Bool → List TodoHierarchy
  | [], _ => []
  | c :: cs, state => toggle_with_children c state :: toggle_children cs state

end

mutual

/-- Depth-first (preorder) flattening of a single subtree. -/
def flatten1 : TodoHierarchy → List Todo
  | .mk t _ cs => t :: flattenF cs

/-- Depth-first (preorder) flattening of a forest. -/
def flattenF : List TodoHierarchy → List Todo
  | [] => []
  | h :: hs => flatten1 h ++ flattenF hs

end

mutual

/-- Erase every `done` flag in a subtree (observation function: two subtrees
with equal `eraseDone1` images agree on everything except `done` flags). -/
def eraseDone1 : TodoHierarchy → TodoHierarchy
  | .mk t d cs => .mk { t with done := false } d (eraseDoneF cs)

/-- Erase every `done` flag in a forest. -/
def eraseDoneF : List TodoHierarchy → List TodoHierarchy
  | [] => []
  | h :: hs => eraseDone1 h :: eraseDoneF hs

end

@[simp] theorem toggle_children_nil (s : Bool) : toggle_children [] s = [] := rfl

@[simp] theorem toggle_children_cons (c : TodoHierarchy) (cs : List TodoHierarchy) (s : Bool) :
    toggle_children (c :: cs) s = toggle_with_children c s :: toggle_children cs s := rfl

@[simp] theorem toggle_with_children_mk (t : Todo) (d : Option String)
    (cs : List TodoHierarchy) (s : Bool) :
    toggle_with_children (.mk t d cs) s = .mk { t with done := s } d (toggle_children cs s) := rfl

@[simp] theorem flatten1_mk (t : Todo) (d : Option String) (cs : List TodoHierarchy) :
    flatten1 (.mk t d cs) = t :: flattenF cs := rfl

@[simp] theorem flattenF_nil : flattenF [] = [] := rfl

@[simp] theorem flattenF_cons (h : TodoHierarchy) (hs : List TodoHierarchy) :
    flattenF (h :: hs) = flatten1 h ++ flattenF hs := rfl

@[simp] theorem eraseDone1_mk (t : Todo) (d : Option String) (cs : List TodoHierarchy) :
    eraseDone1 (.mk t d cs) = .mk { t with done := false } d (eraseDoneF cs) := rfl

@[simp] theorem eraseDoneF_nil : eraseDoneF [] = [] := rfl

@[simp] theorem eraseDoneF_cons (h : TodoHierarchy) (hs : List TodoHierarchy) :
    eraseDoneF (h :: hs) = eraseDone1 h :: eraseDoneF hs := rfl

theorem flattenF_append (xs ys : List TodoHierarchy) :
    flattenF (xs ++ ys) = flattenF xs ++ flattenF ys := by
  induction xs with
  | nil => simp
  | cons h hs ih => simp [ih]

theorem mem_flattenF {t : Todo} {hs : List TodoHierarchy} :
    t ∈ flattenF hs ↔ ∃ h ∈ hs, t ∈ flatten1 h := by
  induction hs with
  | nil => simp
  | cons h hs ih =>
    simp only [flattenF_cons, List.mem_append, ih, List.mem_cons]
    constructor
    · rintro (h1 | ⟨c, hc, h2⟩)
      · exact ⟨h, Or.inl rfl, h1⟩
      · exact ⟨c, Or.inr hc, h2⟩
    · rintro ⟨c, rfl | hc, h2⟩
      · exact Or.inl h2
      · exact Or.inr ⟨c, hc, h2⟩

theorem toggle_children_eq_map (cs : List TodoHierarchy) (s : Bool) :
    toggle_children cs s = cs.map (fun c => toggle_with_children c s) := by
  induction cs with
  | nil => rfl
  | cons c cs ih => simp [ih]

/-- Every task in the subtree of a toggled node carries the new state. -/
theorem toggle_sets_all (h : TodoHierarchy) (s : Bool) :
    ∀ t ∈ flatten1 (toggle_with_children h s), t.done = s := by
  induction h using TodoHierarchy.my_ind with
  | step t d cs ih =>
    intro u hu
    simp only [toggle_with_children_mk, flatten1_mk, List.mem_cons] at hu
    rcases hu with rfl | hu
    · rfl
    · rw [toggle_children_eq_map, mem_flattenF] at hu
      obtain ⟨c', hc', hu⟩ := hu
      obtain ⟨c, hc, rfl⟩ := List.mem_map.mp hc'
      exact ih c hc u hu

/-! ## `build_hierarchy` (timely-lib/src/lib.rs, lines 75–117)

The Rust code uses `indexmap::IndexMap<i64, TodoHierarchy>`: an
insertion-ordered hash map.  It is modelled as an insertion-ordered
association list.  `swap_remove` removes an entry by swapping it with the
last entry and popping; only key-based lookups are performed afterwards,
but we model the swap behaviour faithfully anyway. -/

/-- Insertion-ordered association list modelling `IndexMap<i64, TodoHierarchy>`. -/
abbrev TodoMap := List (Int × TodoHierarchy)

/-- Key lookup (first matching key). -/
def mapLookup (m : TodoMap) (k : Int) : Option TodoHierarchy :=
  match m with
  | [] => none
  | (k₁, v) :: rest => if k₁ = k then some v else mapLookup rest k

/-- `IndexMap::insert`: replace the value in place if the key is present,
otherwise append the new entry at the end. -/
def mapInsert (m : TodoMap) (k : Int) (v : TodoHierarchy) : TodoMap :=
  match m with
  | [] => [(k, v)]
  | (k₁, v₁) :: rest => if k₁ = k then (k, v) :: rest else (k₁, v₁) :: mapInsert rest k v

/-- `hierarchy.children.push(child)` on a subtree value. -/
def TodoHierarchy.pushChild : TodoHierarchy → TodoHierarchy → TodoHierarchy
  | .mk t d cs, c => .mk t d (cs ++ [c])

@[simp] theorem TodoHierarchy.pushChild_mk (t : Todo) (d : Option String)
    (cs : List TodoHierarchy) (c : TodoHierarchy) :
    (TodoHierarchy.mk t d cs).pushChild c = .mk t d (cs ++ [c]) := rfl

/-- `if let Some(parent) = todo_map.get_mut(&k) { parent.children.push(c) }`:
push `c` onto the children of the entry at key `k`, if present. -/
def mapGetMutPush (m : TodoMap) (k : Int) (c : TodoHierarchy) : TodoMap :=
  match m with
  | [] => []
  | (k₁, v) :: rest =>
    if k₁ = k then (k₁, v.pushChild c) :: rest else (k₁, v) :: mapGetMutPush rest k c

/-- `IndexMap::swap_remove(&k)` (entry part): remove the entry at key `k` by
swapping the last entry into its slot and popping the last slot. -/
def swapRemoveEntries (m : TodoMap) (k : Int) : TodoMap :=
  match m with
  | [] => []
  | (k₁, v) :: rest =>
    if k₁ = k then
      match rest.getLast? with
      | none => []
      | some last => last :: rest.dropLast
    else
      (k₁, v) :: swapRemoveEntries rest k

/-- The second loop of `build_hierarchy`: for each collected id, remove its
entry (`swap_remove`); if the removed subtree's task has a `parent_id`, push
the subtree onto the parent's children *when the parent is still in the map*
(otherwise the subtree is discarded); if it has no `parent_id`, push it onto
the roots list. -/
def buildLoop : List Int → TodoMap → List TodoHierarchy → TodoMap × List TodoHierarchy
  | [], m, roots => (m, roots)
  | id :: rest, m, roots =>
    match mapLookup m id with
    | none => buildLoop rest m roots
    | some hier =>
      match hier.todo.parent_id with
      | some pid => buildLoop rest (mapGetMutPush (swapRemoveEntries m id) pid hier) roots
      | none => buildLoop rest (swapRemoveEntries m id) (roots ++ [hier])

/-- `build_hierarchy` from `timely-lib/src/lib.rs`: reverse the input, index
every task by id (first loop), run the attach loop over the collected keys,
then reverse the accumulated roots. -/
def build_hierarchy (todos : List Todo) : List TodoHierarchy :=
  let todo_map : TodoMap :=
    todos.reverse.foldl
      (fun m todo => mapInsert m todo.id (.mk todo (todo.date.map convert_date_to_string) []))
      []
  let todo_ids : List Int := todo_map.map Prod.fst
  let result := buildLoop todo_ids todo_map []
  result.2.reverse

/-- Every subtree ever appended to the roots accumulator by `buildLoop` has
`parent_id = none` (the push happens only in the `none` branch). -/
theorem buildLoop_roots_parentless (ids : List Int) (m : TodoMap) (roots : List TodoHierarchy)
    (hr : ∀ h ∈ roots, h.todo.parent_id = none) :
    ∀ h ∈ (buildLoop ids m roots).2, h.todo.parent_id = none := by
  induction ids generalizing m roots with
  | nil => exact hr
  | cons id rest ih =>
    cases hm : mapLookup m id with
    | none =>
      simp only [buildLoop, hm]
      exact ih m roots hr
    | some hier =>
      cases hp : hier.todo.parent_id with
      | some pid =>
        simp only [buildLoop, hm, hp]
        exact ih _ roots hr
      | none =>
        simp only [buildLoop, hm, hp]
        apply ih
        intro h hh
        rcases List.mem_append.mp hh with h1 | h2
        · exact hr h h1
        · rw [List.mem_singleton] at h2; subst h2; exact hp

/-- Every root returned by `build_hierarchy` is a task with no `parent_id`. -/
theorem build_hierarchy_root_has_no_parent (todos : List Todo) :
    ∀ h ∈ build_hierarchy todos, h.todo.parent_id = none := by
  intro h hh
  unfold build_hierarchy at hh
  rw [List.mem_reverse] at hh
  exact buildLoop_roots_parentless _ _ [] (by intro x hx; cases hx) h hh

/-- Concrete fixture: a task whose `parent_id` names an id (2) that does not
occur in the input. -/
def orphanTask : Todo :=
  { id := 1, name := "orphan", done := false, description := none,
    parent_id := some 2, date := none }

/-- A task with no parent, used as a witness fixture. -/
def soleRootTask : Todo :=
  { id := 7, name := "root", done := false, description := none,
    parent_id := none, date := none }


/-- In `build_hierarchy`, a task whose `parent_id` names an absent id is
*discarded*: the `if let Some(parent) = todo_map.get_mut(&parent_id)` branch
silently drops the subtree, and the `else` (roots) branch is only reached
when `parent_id` is `None`.  Concretely, a single orphan task produces an
empty forest instead of appearing as a root. -/
theorem build_hierarchy_orphan_dropped : build_hierarchy [orphanTask] = [] := rfl

/-- Round-trip failure at the same input: the orphan task occurs in the
input but not in the depth-first flattening of the resulting forest. -/
theorem build_hierarchy_round_trip_loses_orphan :
    orphanTask ∈ [orphanTask] ∧ orphanTask ∉ flattenF (build_hierarchy [orphanTask]) := by
  refine ⟨List.mem_singleton_self _, ?_⟩
  show orphanTask ∉ ([] : List Todo)
  exact List.not_mem_nil _

/-- Fixture: parent with two children, children listed in input order 2, 3. -/
def parentTaskA : Todo :=
  { id := 1, name := "A", done := false, description := none,
    parent_id := none, date := none }

def childTaskB : Todo :=
  { id := 2, name := "B", done := false, description := none,
    parent_id := some 1, date := none }

def childTaskC : Todo :=
  { id := 3, name := "C", done := false, description := none,
    parent_id := some 1, date := none }

/-- The children of parent 1 come out as `[3, 2]` — the *reverse* of their
input order `[2, 3]` (the attach loop walks the reversed input and the
children lists are never reversed back), refuting the claim that children
keep the input's relative order. -/
theorem build_hierarchy_children_order_counterexample :
    [parentTaskA, childTaskB, childTaskC].map Todo.id = [1, 2, 3] ∧
    (build_hierarchy [parentTaskA, childTaskB, childTaskC]).map
      (fun h => (h.todo.id, h.children.map (fun c => c.todo.id))) = [(1, [3, 2])] :=
  ⟨rfl, rfl⟩

/-! ## Association-map lemmas -/

theorem mapLookup_eq_none_iff {m : TodoMap} {k : Int} :
    mapLookup m k = none ↔ k ∉ m.map Prod.fst := by
  induction m with
  | nil => simp [mapLookup]
  | cons e rest ih =>
    obtain ⟨k₁, v⟩ := e
    by_cases hk : k₁ = k
    · subst hk; simp [mapLookup]
    · simp [mapLookup, hk, ih, Ne.symm hk]

theorem mapLookup_isSome_of_mem {m : TodoMap} {k : Int}
    (h : k ∈ m.map Prod.fst) : ∃ v, mapLookup m k = some v := by
  cases hv : mapLookup m k with
  | none => exact absurd (mapLookup_eq_none_iff.mp hv) (not_not_intro h)
  | some v => exact ⟨v, rfl⟩

theorem mem_of_mapLookup_eq_some {m : TodoMap} {k : Int} {v : TodoHierarchy}
    (h : mapLookup m k = some v) : k ∈ m.map Prod.fst := by
  by_contra hk
  rw [← mapLookup_eq_none_iff] at hk
  rw [h] at hk
  cases hk

/-- `swap_remove` of a present key: the removed entry together with the
remaining entries is a permutation of the original entry list. -/
theorem swapRemove_perm {m : TodoMap} {k : Int} {v : TodoHierarchy}
    (h : mapLookup m k = some v) :
    List.Perm ((k, v) :: swapRemoveEntries m k) m := by
  induction m with
  | nil => cases h
  | cons e rest ih =>
    obtain ⟨k₁, v₁⟩ := e
    by_cases hk : k₁ = k
    · subst hk
      have hv : v₁ = v := by simpa [mapLookup] using h
      subst hv
      cases hL : rest.getLast? with
      | none =>
        have hsw : swapRemoveEntries ((k₁, v₁) :: rest) k₁ = [] := by
          simp [swapRemoveEntries, hL]
        rw [hsw, List.getLast?_eq_none_iff.mp hL]
      | some last =>
        have hsw : swapRemoveEntries ((k₁, v₁) :: rest) k₁ = last :: rest.dropLast := by
          simp [swapRemoveEntries, hL]
        rw [hsw]
        refine List.Perm.cons _ ?_
        have hrest : rest.dropLast ++ [last] = rest :=
          List.dropLast_append_getLast? last hL
        have hp : List.Perm (last :: rest.dropLast) (rest.dropLast ++ [last]) :=
          (List.perm_append_singleton _ _).symm
        rw [hrest] at hp
        exact hp
    · simp only [mapLookup, if_neg hk] at h
      simp only [swapRemoveEntries, if_neg hk]
      exact (List.Perm.swap _ _ _).trans (List.Perm.cons _ (ih h))

theorem keys_nodup_of_perm {m₁ m₂ : TodoMap} (p : List.Perm m₁ m₂)
    (nd : (m₁.map Prod.fst).Nodup) : (m₂.map Prod.fst).Nodup :=
  ((p.map Prod.fst).nodup_iff).mp nd

/-- Key lookup is invariant under permutation of an entry list whose keys
are pairwise distinct. -/
theorem mapLookup_eq_of_perm {m₁ m₂ : TodoMap} (p : List.Perm m₁ m₂) :
    (m₁.map Prod.fst).Nodup → ∀ k, mapLookup m₁ k = mapLookup m₂ k := by
  induction p with
  | nil => intro _ k; rfl
  | cons x p ih =>
    intro nd k
    obtain ⟨k₁, v₁⟩ := x
    simp only [List.map_cons, List.nodup_cons] at nd
    by_cases hk : k₁ = k
    · subst hk; simp [mapLookup]
    · simp only [mapLookup, if_neg hk]
      exact ih nd.2 k
  | swap x y l =>
    intro nd k
    obtain ⟨k₁, v₁⟩ := x
    obtain ⟨k₂, v₂⟩ := y
    simp only [List.map_cons, List.nodup_cons, List.mem_cons] at nd
    by_cases h2 : k₂ = k
    · subst h2
      have h1 : k₁ ≠ k₂ := fun hc => nd.1 (Or.inl hc.symm)
      simp [mapLookup, h1, Ne.symm h1]
    · by_cases h1 : k₁ = k
      · subst h1; simp [mapLookup, h2]
      · simp [mapLookup, h1, h2]
  | trans p₁ p₂ ih₁ ih₂ =>
    intro nd k
    exact (ih₁ nd k).trans (ih₂ (keys_nodup_of_perm p₁ nd) k)

/-- `get_mut` + `children.push` does not change the key sequence. -/
theorem mapGetMutPush_keys (m : TodoMap) (k : Int) (c : TodoHierarchy) :
    (mapGetMutPush m k c).map Prod.fst = m.map Prod.fst := by
  induction m with
  | nil => rfl
  | cons e rest ih =>
    obtain ⟨k₁, v⟩ := e
    by_cases hk : k₁ = k
    · simp [mapGetMutPush, hk]
    · simp [mapGetMutPush, hk, ih]

theorem mapGetMutPush_lookup_ne {m : TodoMap} {k k' : Int} (c : TodoHierarchy)
    (hk : k' ≠ k) : mapLookup (mapGetMutPush m k c) k' = mapLookup m k' := by
  induction m with
  | nil => rfl
  | cons e rest ih =>
    obtain ⟨k₁, v⟩ := e
    by_cases h1 : k₁ = k
    · subst h1
      simp [mapGetMutPush, mapLookup, Ne.symm hk]
    · by_cases h2 : k₁ = k'
      · subst h2; simp [mapGetMutPush, mapLookup, h1]
      · simp [mapGetMutPush, mapLookup, h1, h2, ih]

theorem mapGetMutPush_lookup_eq (m : TodoMap) (k : Int) (c : TodoHierarchy) :
    mapLookup (mapGetMutPush m k c) k = (mapLookup m k).map (fun v => v.pushChild c) := by
  induction m with
  | nil => rfl
  | cons e rest ih =>
    obtain ⟨k₁, v⟩ := e
    by_cases h1 : k₁ = k
    · subst h1; simp [mapGetMutPush, mapLookup]
    · simp [mapGetMutPush, mapLookup, h1, ih]

/-! ## Multiset bookkeeping for the attach loop -/

theorem flattenF_eq_flatMap (hs : List TodoHierarchy) :
    flattenF hs = hs.flatMap flatten1 := by
  induction hs with
  | nil => rfl
  | cons h hs ih => simp [ih]

theorem flattenF_perm {hs₁ hs₂ : List TodoHierarchy} (p : List.Perm hs₁ hs₂) :
    List.Perm (flattenF hs₁) (flattenF hs₂) := by
  rw [flattenF_eq_flatMap, flattenF_eq_flatMap]
  exact p.flatMap_right flatten1

/-- Depth-first flattening of all values held in the map. -/
def flattenValues (m : TodoMap) : List Todo := flattenF (m.map Prod.snd)

@[simp] theorem flattenValues_nil : flattenValues [] = [] := rfl

theorem flattenValues_cons (e : Int × TodoHierarchy) (m : TodoMap) :
    flattenValues (e :: m) = flatten1 e.2 ++ flattenValues m := rfl

theorem flatten1_pushChild (v c : TodoHierarchy) :
    flatten1 (v.pushChild c) = flatten1 v ++ flatten1 c := by
  cases v with
  | mk t d cs => simp [TodoHierarchy.pushChild, flattenF_append]

theorem pushChild_todo (v c : TodoHierarchy) : (v.pushChild c).todo = v.todo := by
  cases v; rfl

theorem flattenValues_getMutPush {m : TodoMap} {k : Int} (c : TodoHierarchy)
    (hk : k ∈ m.map Prod.fst) :
    List.Perm (flattenValues (mapGetMutPush m k c)) (flattenValues m ++ flatten1 c) := by
  induction m with
  | nil => cases hk
  | cons e rest ih =>
    obtain ⟨k₁, v⟩ := e
    by_cases h1 : k₁ = k
    · have hred : mapGetMutPush ((k₁, v) :: rest) k c = (k₁, v.pushChild c) :: rest := by
        simp [mapGetMutPush, h1]
      rw [hred, flattenValues_cons, flattenValues_cons]
      simp only [flatten1_pushChild]
      rw [List.append_assoc, List.append_assoc]
      exact List.Perm.append_left _ List.perm_append_comm
    · have hred : mapGetMutPush ((k₁, v) :: rest) k c = (k₁, v) :: mapGetMutPush rest k c := by
        simp [mapGetMutPush, h1]
      have hk' : k ∈ rest.map Prod.fst := by
        rcases List.mem_cons.mp hk with h | h
        · exact absurd h.symm h1
        · exact h
      rw [hred, flattenValues_cons, flattenValues_cons, List.append_assoc]
      exact List.Perm.append_left _ (ih hk')

theorem mapLookup_swapRemove {m : TodoMap} {k : Int} {v : TodoHierarchy}
    (nd : (m.map Prod.fst).Nodup) (h : mapLookup m k = some v) (k' : Int) :
    mapLookup (swapRemoveEntries m k) k' = if k' = k then none else mapLookup m k' := by
  have hperm := swapRemove_perm h
  have ndc : (((k, v) :: swapRemoveEntries m k).map Prod.fst).Nodup :=
    keys_nodup_of_perm hperm.symm nd
  have hlk := mapLookup_eq_of_perm hperm ndc k'
  simp only [List.map_cons, List.nodup_cons] at ndc
  by_cases hk : k' = k
  · subst hk
    rw [if_pos rfl, mapLookup_eq_none_iff]
    exact ndc.1
  · rw [if_neg hk, ← hlk]
    simp [mapLookup, Ne.symm hk]

/-- `ParentsLater pf ids`: walking `ids` from the front, every id's parent
(as given by `pf`) occurs strictly later in the list. -/
def ParentsLater (pf : Int → Option Int) : List Int → Prop
  | [] => True
  | id :: rest => (∀ pid, pf id = some pid → pid ∈ rest) ∧ ParentsLater pf rest

/-- Main multiset invariant: when every processed id still finds its parent
later in the id list (`ParentsLater`), the attach loop moves tasks between
the map and the roots without losing or duplicating any. -/
theorem buildLoop_flatten_perm (pf : Int → Option Int) :
    ∀ (ids : List Int) (m : TodoMap) (roots : List TodoHierarchy),
      (m.map Prod.fst).Nodup →
      List.Perm (m.map Prod.fst) ids →
      (∀ k h, mapLookup m k = some h → h.todo.parent_id = pf k) →
      ParentsLater pf ids →
      List.Perm
        (flattenValues (buildLoop ids m roots).1 ++ flattenF (buildLoop ids m roots).2)
        (flattenValues m ++ flattenF roots) := by
  intro ids
  induction ids with
  | nil => intro m roots _ _ _ _; exact List.Perm.refl _
  | cons id rest ih =>
    intro m roots nd hkeys hpf hpl
    obtain ⟨hfirst, hrest⟩ := hpl
    have hid : id ∈ m.map Prod.fst := hkeys.mem_iff.mpr (List.mem_cons_self id rest)
    obtain ⟨hier, hh⟩ := mapLookup_isSome_of_mem hid
    have hperm := swapRemove_perm hh
    have hknodup : ((id :: (swapRemoveEntries m id).map Prod.fst)).Nodup := by
      have := keys_nodup_of_perm hperm.symm nd
      simpa using this
    have nd' : ((swapRemoveEntries m id).map Prod.fst).Nodup := (List.nodup_cons.mp hknodup).2
    have hkperm : List.Perm (id :: (swapRemoveEntries m id).map Prod.fst) (m.map Prod.fst) := by
      simpa using hperm.map Prod.fst
    have hkeys' : List.Perm ((swapRemoveEntries m id).map Prod.fst) rest :=
      (List.perm_cons id).mp (hkperm.trans hkeys)
    have hpf' : ∀ k h, mapLookup (swapRemoveEntries m id) k = some h →
        h.todo.parent_id = pf k := by
      intro k h hkh
      by_cases hkid : k = id
      · subst hkid
        rw [mapLookup_swapRemove nd hh k, if_pos rfl] at hkh
        cases hkh
      · rw [mapLookup_swapRemove nd hh k, if_neg hkid] at hkh
        exact hpf k h hkh
    have hvals : List.Perm (flatten1 hier ++ flattenValues (swapRemoveEntries m id))
        (flattenValues m) := by
      have := flattenF_perm (hperm.map Prod.snd)
      simpa [flattenValues] using this
    cases hp : hier.todo.parent_id with
    | none =>
      have hred : buildLoop (id :: rest) m roots
          = buildLoop rest (swapRemoveEntries m id) (roots ++ [hier]) := by
        simp only [buildLoop, hh, hp]
      rw [hred]
      have hrec := ih (swapRemoveEntries m id) (roots ++ [hier]) nd' hkeys' hpf' hrest
      refine hrec.trans ?_
      rw [flattenF_append]
      have h1 : List.Perm
          (flattenValues (swapRemoveEntries m id) ++ (flattenF roots ++ flattenF [hier]))
          ((flatten1 hier ++ flattenValues (swapRemoveEntries m id)) ++ flattenF roots) := by
        have h2 : List.Perm
            (flattenValues (swapRemoveEntries m id) ++ (flattenF roots ++ flattenF [hier]))
            (flattenF [hier] ++ (flattenValues (swapRemoveEntries m id) ++ flattenF roots)) := by
          have := @List.perm_append_comm Todo
            (flattenValues (swapRemoveEntries m id) ++ flattenF roots)
            (flattenF [hier])
          simpa [List.append_assoc] using this
        refine h2.trans ?_
        simp [List.append_assoc]
      refine h1.trans ?_
      exact hvals.append_right _
    | some pid =>
      have hpid : pf id = some pid := by rw [← hpf id hier hh]; exact hp
      have hpidrest : pid ∈ rest := hfirst pid hpid
      have hpidkeys : pid ∈ (swapRemoveEntries m id).map Prod.fst :=
        hkeys'.mem_iff.mpr hpidrest
      have hred : buildLoop (id :: rest) m roots
          = buildLoop rest (mapGetMutPush (swapRemoveEntries m id) pid hier) roots := by
        simp only [buildLoop, hh, hp]
      rw [hred]
      have ndpush : ((mapGetMutPush (swapRemoveEntries m id) pid hier).map Prod.fst).Nodup := by
        rw [mapGetMutPush_keys]; exact nd'
      have hkeyspush :
          List.Perm ((mapGetMutPush (swapRemoveEntries m id) pid hier).map Prod.fst) rest := by
        rw [mapGetMutPush_keys]; exact hkeys'
      have hpfpush : ∀ k h,
          mapLookup (mapGetMutPush (swapRemoveEntries m id) pid hier) k = some h →
          h.todo.parent_id = pf k := by
        intro k h hkh
        by_cases hkpid : k = pid
        · subst hkpid
          rw [mapGetMutPush_lookup_eq] at hkh
          cases hv : mapLookup (swapRemoveEntries m id) k with
          | none => rw [hv] at hkh; cases hkh
          | some v =>
            rw [hv] at hkh
            have hkh2 : v.pushChild hier = h := by simpa using hkh
            subst hkh2
            rw [pushChild_todo]
            exact hpf' k v hv
        · rw [mapGetMutPush_lookup_ne hier hkpid] at hkh
          exact hpf' k h hkh
      have hrec := ih (mapGetMutPush (swapRemoveEntries m id) pid hier) roots
        ndpush hkeyspush hpfpush hrest
      refine hrec.trans ?_
      have hpush := flattenValues_getMutPush hier hpidkeys
      refine (hpush.append_right (flattenF roots)).trans ?_
      have h3 : List.Perm
          ((flattenValues (swapRemoveEntries m id) ++ flatten1 hier) ++ flattenF roots)
          ((flatten1 hier ++ flattenValues (swapRemoveEntries m id)) ++ flattenF roots) :=
        (List.perm_append_comm).append_right _
      exact h3.trans (hvals.append_right _)

/-- The attach loop drains the map completely when the collected ids cover
the keys. -/
theorem buildLoop_final_map_eq_nil :
    ∀ (ids : List Int) (m : TodoMap) (roots : List TodoHierarchy),
      (m.map Prod.fst).Nodup →
      List.Perm (m.map Prod.fst) ids →
      (buildLoop ids m roots).1 = [] := by
  intro ids
  induction ids with
  | nil =>
    intro m roots _ hkeys
    have : m.map Prod.fst = [] := hkeys.eq_nil
    simpa [buildLoop] using List.map_eq_nil_iff.mp this
  | cons id rest ih =>
    intro m roots nd hkeys
    have hid : id ∈ m.map Prod.fst := hkeys.mem_iff.mpr (List.mem_cons_self id rest)
    obtain ⟨hier, hh⟩ := mapLookup_isSome_of_mem hid
    have hperm := swapRemove_perm hh
    have hknodup : ((id :: (swapRemoveEntries m id).map Prod.fst)).Nodup := by
      have := keys_nodup_of_perm hperm.symm nd
      simpa using this
    have nd' : ((swapRemoveEntries m id).map Prod.fst).Nodup := (List.nodup_cons.mp hknodup).2
    have hkperm : List.Perm (id :: (swapRemoveEntries m id).map Prod.fst) (m.map Prod.fst) := by
      simpa using hperm.map Prod.fst
    have hkeys' : List.Perm ((swapRemoveEntries m id).map Prod.fst) rest :=
      (List.perm_cons id).mp (hkperm.trans hkeys)
    cases hp : hier.todo.parent_id with
    | none =>
      have hred : buildLoop (id :: rest) m roots
          = buildLoop rest (swapRemoveEntries m id) (roots ++ [hier]) := by
        simp only [buildLoop, hh, hp]
      rw [hred]
      exact ih _ _ nd' hkeys'
    | some pid =>
      have hred : buildLoop (id :: rest) m roots
          = buildLoop rest (mapGetMutPush (swapRemoveEntries m id) pid hier) roots := by
        simp only [buildLoop, hh, hp]
      rw [hred]
      refine ih _ _ ?_ ?_
      · rw [mapGetMutPush_keys]; exact nd'
      · rw [mapGetMutPush_keys]; exact hkeys'

/-! ## Characterizing the first loop of `build_hierarchy` -/

theorem mapInsert_fresh {m : TodoMap} {k : Int} (v : TodoHierarchy)
    (hk : k ∉ m.map Prod.fst) : mapInsert m k v = m ++ [(k, v)] := by
  induction m with
  | nil => rfl
  | cons e rest ih =>
    obtain ⟨k₁, v₁⟩ := e
    simp only [List.map_cons, List.mem_cons] at hk
    push_neg at hk
    have h1 : k₁ ≠ k := fun h => hk.1 h.symm
    simp [mapInsert, h1, ih hk.2]

/-- The entry built for each task by the first loop of `build_hierarchy`. -/
def entryOf (t : Todo) : Int × TodoHierarchy :=
  (t.id, .mk t (t.date.map convert_date_to_string) [])

theorem foldl_mapInsert_entries :
    ∀ (l : List Todo) (acc : TodoMap),
      (acc.map Prod.fst ++ l.map Todo.id).Nodup →
      l.foldl
        (fun m todo => mapInsert m todo.id (.mk todo (todo.date.map convert_date_to_string) []))
        acc = acc ++ l.map entryOf := by
  intro l
  induction l with
  | nil => intro acc _; simp
  | cons t l ih =>
    intro acc hnd
    simp only [List.foldl_cons]
    have hparts := List.nodup_append.mp (by simpa using hnd)
    have hfresh : t.id ∉ acc.map Prod.fst := by
      intro hmem
      exact hparts.2.2 hmem (List.mem_cons_self _ _)
    rw [mapInsert_fresh _ hfresh]
    have hnd2 : ((acc ++ [(t.id, TodoHierarchy.mk t (t.date.map convert_date_to_string) [])]).map
        Prod.fst ++ l.map Todo.id).Nodup := by
      simpa [List.append_assoc] using hnd
    rw [ih _ hnd2]
    simp [entryOf]

theorem mapLookup_entries {l : List Todo} (nd : (l.map Todo.id).Nodup) {t : Todo}
    (ht : t ∈ l) :
    mapLookup (l.map entryOf) t.id
      = some (TodoHierarchy.mk t (t.date.map convert_date_to_string) []) := by
  induction l with
  | nil => cases ht
  | cons u l ih =>
    simp only [List.map_cons, List.nodup_cons] at nd
    rcases List.mem_cons.mp ht with rfl | ht
    · simp [entryOf, mapLookup]
    · have hne : u.id ≠ t.id := by
        intro he
        exact nd.1 (List.mem_map.mpr ⟨t, ht, he.symm⟩)
      simp [entryOf, mapLookup, hne, ih nd.2 ht]

theorem flattenF_map_entry (l : List Todo) :
    flattenF ((l.map entryOf).map Prod.snd) = l := by
  induction l with
  | nil => rfl
  | cons t l ih =>
    simp only [List.map_cons, flattenF_cons]
    rw [ih]
    simp [entryOf]

/-- Executable side condition: every task's `parent_id`, when present, names
the id of a task occurring strictly earlier in the list (`seen` accumulates
the ids already walked past). -/
def parentsBeforeB : List Todo → List Int → Bool
  | [], _ => true
  | t :: rest, seen =>
    (match t.parent_id with
     | none => true
     | some pid => seen.contains pid) && parentsBeforeB rest (seen ++ [t.id])

theorem parentsLater_of_parentsBeforeB (pf : Int → Option Int) :
    ∀ (l : List Todo) (seen seenRev : List Int),
      (∀ t ∈ l, pf t.id = t.parent_id) →
      (∀ x ∈ seen, x ∈ seenRev) →
      ParentsLater pf seenRev →
      parentsBeforeB l seen = true →
      ParentsLater pf ((l.map Todo.id).reverse ++ seenRev) := by
  intro l
  induction l with
  | nil => intro seen seenRev _ _ hPL _; simpa using hPL
  | cons t l ih =>
    intro seen seenRev hpf hseen hPL hB
    simp only [parentsBeforeB, Bool.and_eq_true] at hB
    obtain ⟨hB1, hB2⟩ := hB
    have hstep : ParentsLater pf (t.id :: seenRev) := by
      refine ⟨?_, hPL⟩
      intro pid hpid
      rw [hpf t (List.mem_cons_self t l)] at hpid
      rw [hpid] at hB1
      have hmem : pid ∈ seen := by simpa using hB1
      exact hseen pid hmem
    have hrec := ih (seen ++ [t.id]) (t.id :: seenRev)
      (fun u hu => hpf u (List.mem_cons_of_mem t hu))
      (fun x hx => by
        rcases List.mem_append.mp hx with h | h
        · exact List.mem_cons_of_mem _ (hseen x h)
        · rw [List.mem_singleton] at h; subst h; exact List.mem_cons_self _ _)
      hstep hB2
    simpa [List.reverse_cons, List.append_assoc] using hrec

/-- **C2 (amended).**  For inputs with pairwise-distinct ids in which every
task's `parent_id`, when present, refers to a task occurring strictly
earlier in the input sequence, the depth-first flattening of the forest
returned by `build_hierarchy` is a permutation of the input: no task is
lost and no task is duplicated.  (Without the parents-first condition tasks
are dropped, see `build_hierarchy_round_trip_loses_orphan`.) -/
theorem build_hierarchy_round_trip (todos : List Todo)
    (nd : (todos.map Todo.id).Nodup)
    (hpb : parentsBeforeB todos [] = true) :
    List.Perm (flattenF (build_hierarchy todos)) todos := by
  have ndrev : (todos.reverse.map Todo.id).Nodup := by
    rw [List.map_reverse]
    exact List.nodup_reverse.mpr nd
  have hmap : todos.reverse.foldl
      (fun m todo => mapInsert m todo.id (.mk todo (todo.date.map convert_date_to_string) []))
      ([] : TodoMap) = todos.reverse.map entryOf := by
    have := foldl_mapInsert_entries todos.reverse ([] : TodoMap) (by simpa using ndrev)
    simpa using this
  have hkeys0 : (todos.reverse.map entryOf).map Prod.fst = todos.reverse.map Todo.id := by
    simp [entryOf, List.map_map, Function.comp_def]
  have hbuild : build_hierarchy todos
      = (buildLoop ((todos.reverse.map entryOf).map Prod.fst) (todos.reverse.map entryOf)
          []).2.reverse := by
    simp only [build_hierarchy, hmap]
  set pf : Int → Option Int :=
    fun k => (mapLookup (todos.reverse.map entryOf) k).bind (fun h => h.todo.parent_id) with hpf_def
  have hpf : ∀ k h, mapLookup (todos.reverse.map entryOf) k = some h →
      h.todo.parent_id = pf k := by
    intro k h hkh
    rw [hpf_def]
    simp only []
    rw [hkh]
    rfl
  have hpf_id : ∀ t ∈ todos, pf t.id = t.parent_id := by
    intro t ht
    rw [hpf_def]
    simp only []
    rw [mapLookup_entries ndrev (List.mem_reverse.mpr ht)]
    rfl
  have hpl : ParentsLater pf ((todos.reverse.map entryOf).map Prod.fst) := by
    rw [hkeys0, List.map_reverse]
    have := parentsLater_of_parentsBeforeB pf todos [] []
      hpf_id (fun x hx => hx) trivial hpb
    simpa using this
  have nd0 : ((todos.reverse.map entryOf).map Prod.fst).Nodup := by
    rw [hkeys0]; exact ndrev
  have hperm := buildLoop_flatten_perm pf ((todos.reverse.map entryOf).map Prod.fst)
    (todos.reverse.map entryOf) [] nd0 (List.Perm.refl _) hpf hpl
  have hfinal := buildLoop_final_map_eq_nil ((todos.reverse.map entryOf).map Prod.fst)
    (todos.reverse.map entryOf) [] nd0 (List.Perm.refl _)
  rw [hfinal] at hperm
  simp only [flattenValues_nil, List.nil_append, flattenF_nil, List.append_nil] at hperm
  have hFV : flattenValues (todos.reverse.map entryOf) = todos.reverse := by
    rw [flattenValues, flattenF_map_entry]
  rw [hFV] at hperm
  rw [hbuild]
  refine (flattenF_perm (List.reverse_perm _)).trans ?_
  exact hperm.trans (List.reverse_perm _)

theorem build_hierarchy_round_trip_witness :
    List.Perm (flattenF (build_hierarchy [parentTaskA, childTaskB, childTaskC]))
      [parentTaskA, childTaskB, childTaskC] :=
  build_hierarchy_round_trip [parentTaskA, childTaskB, childTaskC] (by decide) (by decide)

/-! ## Cascade toggle (C4, C9) -/

/-- Fixture: a tree A → {B, C} with mixed prior `done` values. -/
def toggleFixture : TodoHierarchy :=
  .mk { id := 1, name := "A", done := false, description := none,
        parent_id := none, date := none } none
    [ .mk { id := 2, name := "B", done := true, description := none,
            parent_id := some 1, date := none } none []
    , .mk { id := 3, name := "C", done := false, description := none,
            parent_id := some 1, date := none } none [] ]

def toggledTaskB : Todo :=
  { id := 2, name := "B", done := true, description := none,
    parent_id := some 1, date := none }

theorem toggle_sets_all_witness : toggledTaskB.done = true :=
  toggle_sets_all toggleFixture true toggledTaskB (by decide)

mutual

/-- One step of `TodoHierarchy::get_hierarchy_by_id` (lib.rs): check the node
itself, then search its children depth-first. -/
def get_hierarchy_in : TodoHierarchy → Int → Option TodoHierarchy
  | .mk t d cs, id =>
    if t.id = id then some (.mk t d cs) else get_hierarchy_by_id cs id

/-- `TodoHierarchy::get_hierarchy_by_id` from `timely-lib/src/lib.rs`:
depth-first search (each node before its children, children before later
siblings) for the node whose task id equals `id`. -/
def get_hierarchy_by_id : List TodoHierarchy → Int → Option TodoHierarchy
  | [], _ => none
  | h :: hs, id =>
    match get_hierarchy_in h id with
    | some found => some found
    | none => get_hierarchy_by_id hs id

end

mutual

/-- Models the client mutation path on one subtree: if this subtree holds the
id (same search order as `get_hierarchy_in`), apply
`toggle_with_children(state)` in place and return the updated subtree. -/
def toggleById1 : TodoHierarchy → Int → Bool → Option TodoHierarchy
  | .mk t d cs, id, s =>
    if t.id = id then some (toggle_with_children (.mk t d cs) s)
    else
      match toggleByIdC cs id s with
      | some cs2 => some (.mk t d cs2)
      | none => none

/-- Models the client mutation path: locate the node with the given id via
the depth-first search of `get_hierarchy_by_id` and apply
`toggle_with_children(state)` through the returned `&mut` reference. -/
def toggleByIdC : List TodoHierarchy → Int → Bool → Option (List TodoHierarchy)
  | [], _, _ => none
  | h :: hs, id, s =>
    match toggleById1 h id s with
    | some h2 => some (h2 :: hs)
    | none =>
      match toggleByIdC hs id s with
      | some hs2 => some (h :: hs2)
      | none => none

end

theorem eraseDoneF_toggle_children {cs : List TodoHierarchy} {s : Bool}
    (ih : ∀ c ∈ cs, eraseDone1 (toggle_with_children c s) = eraseDone1 c) :
    eraseDoneF (toggle_children cs s) = eraseDoneF cs := by
  induction cs with
  | nil => rfl
  | cons c cs ihl =>
    simp only [toggle_children_cons, eraseDoneF_cons]
    rw [ih c (List.mem_cons_self _ _), ihl (fun c hc => ih c (List.mem_cons_of_mem _ hc))]

/-- Toggling changes only `done` flags: the `done`-erased tree is unchanged. -/
theorem eraseDone_toggle (h : TodoHierarchy) (s : Bool) :
    eraseDone1 (toggle_with_children h s) = eraseDone1 h := by
  induction h using TodoHierarchy.my_ind with
  | step t d cs ih =>
    simp only [toggle_with_children_mk, eraseDone1_mk]
    rw [eraseDoneF_toggle_children ih]

mutual

theorem toggleById1_none : ∀ (h : TodoHierarchy) (id : Int) (s : Bool),
    toggleById1 h id s = none → get_hierarchy_in h id = none
  | .mk t d cs, id, s => by
    intro hnone
    by_cases ht : t.id = id
    · simp only [toggleById1, if_pos ht] at hnone
      cases hnone
    · simp only [toggleById1, if_neg ht] at hnone
      simp only [get_hierarchy_in, if_neg ht]
      cases hcs : toggleByIdC cs id s with
      | some cs2 => rw [hcs] at hnone; cases hnone
      | none => exact toggleByIdC_none cs id s hcs

theorem toggleByIdC_none : ∀ (hs : List TodoHierarchy) (id : Int) (s : Bool),
    toggleByIdC hs id s = none → get_hierarchy_by_id hs id = none
  | [], _, _ => fun _ => rfl
  | h :: hs, id, s => by
    intro hnone
    simp only [toggleByIdC] at hnone
    simp only [get_hierarchy_by_id]
    cases hh : toggleById1 h id s with
    | some h2 => rw [hh] at hnone; cases hnone
    | none =>
      rw [hh] at hnone
      rw [toggleById1_none h id s hh]
      cases hhs : toggleByIdC hs id s with
      | some hs2 => rw [hhs] at hnone; cases hnone
      | none => exact toggleByIdC_none hs id s hhs

end

mutual

theorem toggle_frame1_aux : ∀ (h : TodoHierarchy) (id : Int) (s : Bool) (h2 : TodoHierarchy),
    toggleById1 h id s = some h2 →
    eraseDone1 h2 = eraseDone1 h ∧
    ∃ n A B, get_hierarchy_in h id = some n ∧
      flatten1 h = A ++ flatten1 n ++ B ∧
      flatten1 h2 = A ++ flatten1 (toggle_with_children n s) ++ B
  | .mk t d cs, id, s, h2 => by
    intro heq
    by_cases ht : t.id = id
    · simp only [toggleById1, if_pos ht] at heq
      injection heq with h2eq
      subst h2eq
      refine ⟨eraseDone_toggle _ s, .mk t d cs, [], [], ?_, by simp, by simp⟩
      simp [get_hierarchy_in, ht]
    · simp only [toggleById1, if_neg ht] at heq
      cases hcs : toggleByIdC cs id s with
      | none => rw [hcs] at heq; cases heq
      | some cs2 =>
        rw [hcs] at heq
        injection heq with h2eq
        subst h2eq
        obtain ⟨he, n, A, B, hfind, hfl, hfl2⟩ := toggle_frameF_aux cs id s cs2 hcs
        refine ⟨?_, n, t :: A, B, ?_, ?_, ?_⟩
        · simp only [eraseDone1_mk, he]
        · simp only [get_hierarchy_in, if_neg ht, hfind]
        · simp only [flatten1_mk, hfl, List.cons_append]
        · simp only [flatten1_mk, hfl2, List.cons_append]

theorem toggle_frameF_aux : ∀ (hs : List TodoHierarchy) (id : Int) (s : Bool)
    (hs2 : List TodoHierarchy),
    toggleByIdC hs id s = some hs2 →
    eraseDoneF hs2 = eraseDoneF hs ∧
    ∃ n A B, get_hierarchy_by_id hs id = some n ∧
      flattenF hs = A ++ flatten1 n ++ B ∧
      flattenF hs2 = A ++ flatten1 (toggle_with_children n s) ++ B
  | [], _, _, _ => by intro heq; cases heq
  | h :: hs, id, s, hs2 => by
    intro heq
    simp only [toggleByIdC] at heq
    cases hh : toggleById1 h id s with
    | some h2 =>
      rw [hh] at heq
      injection heq with hseq
      subst hseq
      obtain ⟨he, n, A, B, hfind, hfl, hfl2⟩ := toggle_frame1_aux h id s h2 hh
      refine ⟨?_, n, A, B ++ flattenF hs, ?_, ?_, ?_⟩
      · simp only [eraseDoneF_cons, he]
      · simp only [get_hierarchy_by_id, hfind]
      · simp only [flattenF_cons, hfl, List.append_assoc]
      · simp only [flattenF_cons, hfl2, List.append_assoc]
    | none =>
      rw [hh] at heq
      cases hhs : toggleByIdC hs id s with
      | none => rw [hhs] at heq; cases heq
      | some hs3 =>
        rw [hhs] at heq
        injection heq with hseq
        subst hseq
        obtain ⟨he, n, A, B, hfind, hfl, hfl2⟩ := toggle_frameF_aux hs id s hs3 hhs
        refine ⟨?_, n, flatten1 h ++ A, B, ?_, ?_, ?_⟩
        · simp only [eraseDoneF_cons, he]
        · simp only [get_hierarchy_by_id, toggleById1_none h id s hh, hfind]
        · simp only [flattenF_cons, hfl, List.append_assoc]
        · simp only [flattenF_cons, hfl2, List.append_assoc]

end

/-- **C9.**  Toggling a node located anywhere in a forest (the client path:
`get_hierarchy_by_id` followed by `toggle_with_children(state)` through the
returned mutable reference) changes nothing except `done` flags inside the
targeted subtree: erasing all `done` flags yields the same forest as before
(so ids, names, descriptions, parent ids, dates and the entire tree
structure and ordering are untouched), and the depth-first flattening
decomposes as `A ++ subtree ++ B` where the prefix `A` and suffix `B` —
everything outside the targeted subtree — are unchanged verbatim. -/
theorem toggle_with_children_frame (hs : List TodoHierarchy) (id : Int) (s : Bool)
    (hs2 : List TodoHierarchy) (heq : toggleByIdC hs id s = some hs2) :
    eraseDoneF hs2 = eraseDoneF hs ∧
    ∃ n A B, get_hierarchy_by_id hs id = some n ∧
      flattenF hs = A ++ flatten1 n ++ B ∧
      flattenF hs2 = A ++ flatten1 (toggle_with_children n s) ++ B :=
  toggle_frameF_aux hs id s hs2 heq

/-- A second, unrelated root next to the toggled tree. -/
def bystanderNode : TodoHierarchy :=
  .mk { id := 4, name := "D", done := true, description := none,
        parent_id := none, date := none } none []

theorem toggle_with_children_frame_witness :
    eraseDoneF (toggle_with_children toggleFixture true :: [bystanderNode])
      = eraseDoneF (toggleFixture :: [bystanderNode]) :=
  (toggle_with_children_frame (toggleFixture :: [bystanderNode]) 1 true
    (toggle_with_children toggleFixture true :: [bystanderNode]) rfl).1

/-! ## GUI client (timely-app/src/main.rs): `add_to_hierarchy` -/

/-- The GUI client's own `TodoHierarchy` struct (timely-app/src/main.rs),
which has no cached date string: a task and its ordered children. -/
inductive AppHierarchy where
  | mk (todo : Todo) (children : List AppHierarchy)

def AppHierarchy.todo : AppHierarchy → Todo
  | .mk t _ => t

def AppHierarchy.children : AppHierarchy → List AppHierarchy
  | .mk _ cs => cs

@[simp] theorem appHierarchy_todo_mk (t : Todo) (cs : List AppHierarchy) :
    (AppHierarchy.mk t cs).todo = t := rfl

@[simp] theorem appHierarchy_children_mk (t : Todo) (cs : List AppHierarchy) :
    (AppHierarchy.mk t cs).children = cs := rfl

/-- `TodoHierarchy::new` in the GUI client (no date string). -/
def AppHierarchy.new (todo : Todo) : AppHierarchy := .mk todo []

mutual

/-- Depth-first flattening of a client subtree. -/
def flattenApp1 : AppHierarchy → List Todo
  | .mk t cs => t :: flattenAppF cs

/-- Depth-first flattening of a client forest. -/
def flattenAppF : List AppHierarchy → List Todo
  | [] => []
  | h :: hs => flattenApp1 h ++ flattenAppF hs

end

@[simp] theorem flattenApp1_mk (t : Todo) (cs : List AppHierarchy) :
    flattenApp1 (.mk t cs) = t :: flattenAppF cs := rfl

@[simp] theorem flattenAppF_nil : flattenAppF [] = [] := rfl

@[simp] theorem flattenAppF_cons (h : AppHierarchy) (hs : List AppHierarchy) :
    flattenAppF (h :: hs) = flattenApp1 h ++ flattenAppF hs := rfl

theorem flattenAppF_append (xs ys : List AppHierarchy) :
    flattenAppF (xs ++ ys) = flattenAppF xs ++ flattenAppF ys := by
  induction xs with
  | nil => simp
  | cons h hs ih => simp [ih]

mutual

/-- `try_add_to_hierarchy` (timely-app/src/main.rs) on one subtree: if this
node's id equals `todo.parent_id.unwrap_or(-1)`, push the new task as a last
child; otherwise try the children depth-first. -/
def tryAdd1 : AppHierarchy → Todo → Option AppHierarchy
  | .mk t cs, todo =>
    if t.id = todo.parent_id.getD (-1) then some (.mk t (cs ++ [AppHierarchy.new todo]))
    else
      match tryAddC cs todo with
      | some cs2 => some (.mk t cs2)
      | none => none

/-- `try_add_to_hierarchy`: the loop over a sibling list, stopping at the
first subtree that accepts the new task. -/
def tryAddC : List AppHierarchy → Todo → Option (List AppHierarchy)
  | [], _ => none
  | h :: hs, todo =>
    match tryAdd1 h todo with
    | some h2 => some (h2 :: hs)
    | none =>
      match tryAddC hs todo with
      | some hs2 => some (h :: hs2)
      | none => none

end

/-- `add_to_hierarchy` from timely-app/src/main.rs: try to attach the new
task below the node whose id equals `todo.parent_id.unwrap_or(-1)`; if no
subtree accepts it, push a new root at the end. -/
def add_to_hierarchy (hierarchy : List AppHierarchy) (todo : Todo) : List AppHierarchy :=
  match tryAddC hierarchy todo with
  | some hs2 => hs2
  | none => hierarchy ++ [AppHierarchy.new todo]

def negOneNode : AppHierarchy :=
  .mk { id := -1, name := "trap", done := false, description := none,
        parent_id := none, date := none } []

def parentlessTask : Todo :=
  { id := 5, name := "new", done := false, description := none,
    parent_id := none, date := none }

/-- With a node of id `-1` present, a new task *without* a `parent_id` is
attached as that node's child instead of becoming a new root:
`todo.parent_id.unwrap_or(-1)` turns `-1` into a sentinel parent key, so
"parent_id absent ⟹ appended as a root" fails. -/
theorem add_to_hierarchy_counterexample :
    add_to_hierarchy [negOneNode] parentlessTask
      = [.mk negOneNode.todo [AppHierarchy.new parentlessTask]] ∧
    add_to_hierarchy [negOneNode] parentlessTask
      ≠ [negOneNode] ++ [AppHierarchy.new parentlessTask] := by
  constructor
  · rfl
  · intro hcontra
    have h1 : ([AppHierarchy.mk negOneNode.todo [AppHierarchy.new parentlessTask]]
        : List AppHierarchy) = [negOneNode] ++ [AppHierarchy.new parentlessTask] :=
      (show add_to_hierarchy [negOneNode] parentlessTask
        = [.mk negOneNode.todo [AppHierarchy.new parentlessTask]] from rfl) ▸ hcontra
    have hlen := congrArg List.length h1
    simp at hlen

mutual

/-- Following the amended spec sentence (depth-first search "returning a
path — a stack of indices"): the DFS path to the first node in this subtree
whose id is `key` (`some []` = this node itself; `some (i :: p)` = inside
the `i`-th child). -/
def findPath1 : AppHierarchy → Int → Option (List Nat)
  | .mk t cs, key =>
    if t.id = key then some []
    else (findPathC cs key).map (fun ip => ip.1 :: ip.2)

/-- DFS path search over a forest: `(root index, path inside that root)`. -/
def findPathC : List AppHierarchy → Int → Option (Nat × List Nat)
  | [], _ => none
  | h :: hs, key =>
    match findPath1 h key with
    | some p => some (0, p)
    | none => (findPathC hs key).map (fun ip => (ip.1 + 1, ip.2))

end

mutual

/-- Append `todo` as a *last* child of the node addressed by the path,
leaving everything else in place. -/
def appendAtPath1 : AppHierarchy → List Nat → Todo → AppHierarchy
  | .mk t cs, [], todo => .mk t (cs ++ [AppHierarchy.new todo])
  | .mk t cs, i :: p, todo => .mk t (appendAtPathC cs i p todo)

/-- Apply `appendAtPath1` to the `i`-th tree of a forest. -/
def appendAtPathC : List AppHierarchy → Nat → List Nat → Todo → List AppHierarchy
  | [], _, _, _ => []
  | h :: hs, 0, p, todo => appendAtPath1 h p todo :: hs
  | h :: hs, Nat.succ i, p, todo => h :: appendAtPathC hs i p todo

end

/-- The insert operation as the (amended) spec describes it: locate by
depth-first search the first node whose task id equals
`todo.parent_id.unwrap_or(-1)`; if found, append the new task as a last
child of that node; if not found, append a new root node at the end. -/
def addToHierarchySpec (hs : List AppHierarchy) (todo : Todo) : List AppHierarchy :=
  match findPathC hs (todo.parent_id.getD (-1)) with
  | some ip => appendAtPathC hs ip.1 ip.2 todo
  | none => hs ++ [AppHierarchy.new todo]

mutual

theorem tryAdd1_eq_path : ∀ (h : AppHierarchy) (todo : Todo),
    tryAdd1 h todo
      = (findPath1 h (todo.parent_id.getD (-1))).map (fun p => appendAtPath1 h p todo)
  | .mk t cs, todo => by
    by_cases ht : t.id = todo.parent_id.getD (-1)
    · simp only [tryAdd1, findPath1, if_pos ht, Option.map_some]
      rfl
    · simp only [tryAdd1, findPath1, if_neg ht]
      rw [tryAddC_eq_path cs todo]
      cases hfp : findPathC cs (todo.parent_id.getD (-1)) with
      | none => rfl
      | some ip => rfl

theorem tryAddC_eq_path : ∀ (hs : List AppHierarchy) (todo : Todo),
    tryAddC hs todo
      = (findPathC hs (todo.parent_id.getD (-1))).map
          (fun ip => appendAtPathC hs ip.1 ip.2 todo)
  | [], _ => rfl
  | h :: hs, todo => by
    simp only [tryAddC, findPathC]
    rw [tryAdd1_eq_path h todo]
    cases hf1 : findPath1 h (todo.parent_id.getD (-1)) with
    | some p => rfl
    | none =>
      simp only [Option.map_none]
      rw [tryAddC_eq_path hs todo]
      cases hfp : findPathC hs (todo.parent_id.getD (-1)) with
      | none => rfl
      | some ip => rfl

end

/-- **C7 (amended).**  `add_to_hierarchy` behaves exactly as the spec's
insert operation with the match key `todo.parent_id.unwrap_or(-1)`: the new
task becomes the last child of the first depth-first node whose id equals
that key (children of other nodes untouched, existing children of the found
node keep their positions, the new child is appended at the end), and when
no node carries that key — in particular when `parent_id` is absent and no
node has id `-1` — the new task is appended as a new root at the end.
(When `parent_id` is absent but some node has id `-1`, the task is attached
under that node, see `add_to_hierarchy_counterexample`.) -/
theorem add_to_hierarchy_eq_spec (hs : List AppHierarchy) (todo : Todo) :
    add_to_hierarchy hs todo = addToHierarchySpec hs todo := by
  unfold add_to_hierarchy addToHierarchySpec
  rw [tryAddC_eq_path hs todo]
  cases hfp : findPathC hs (todo.parent_id.getD (-1)) with
  | none => rfl
  | some ip => rfl

mutual

theorem tryAdd1_flatten : ∀ (h : AppHierarchy) (todo : Todo) (h2 : AppHierarchy),
    tryAdd1 h todo = some h2 →
    List.Perm (flattenApp1 h2) (todo :: flattenApp1 h)
  | .mk t cs, todo, h2 => by
    intro heq
    by_cases ht : t.id = todo.parent_id.getD (-1)
    · simp only [tryAdd1, if_pos ht] at heq
      injection heq with h2eq
      subst h2eq
      simp only [flattenApp1_mk, flattenAppF_append]
      have h1 : List.Perm (flattenAppF cs ++ flattenAppF [AppHierarchy.new todo])
          (todo :: flattenAppF cs) := by
        simpa [AppHierarchy.new] using
          (List.perm_append_singleton todo (flattenAppF cs))
      exact (h1.cons t).trans (List.Perm.swap todo t _)
    · simp only [tryAdd1, if_neg ht] at heq
      cases hcs : tryAddC cs todo with
      | none => rw [hcs] at heq; cases heq
      | some cs2 =>
        rw [hcs] at heq
        injection heq with h2eq
        subst h2eq
        have ih := tryAddC_flatten cs todo cs2 hcs
        simp only [flattenApp1_mk]
        exact (ih.cons t).trans (List.Perm.swap todo t _)

theorem tryAddC_flatten : ∀ (hs : List AppHierarchy) (todo : Todo) (hs2 : List AppHierarchy),
    tryAddC hs todo = some hs2 →
    List.Perm (flattenAppF hs2) (todo :: flattenAppF hs)
  | [], _, _ => by intro heq; cases heq
  | h :: hs, todo, hs2 => by
    intro heq
    simp only [tryAddC] at heq
    cases hh : tryAdd1 h todo with
    | some h2 =>
      rw [hh] at heq
      injection heq with hseq
      subst hseq
      have ih := tryAdd1_flatten h todo h2 hh
      simp only [flattenAppF_cons]
      exact ih.append_right (flattenAppF hs)
    | none =>
      rw [hh] at heq
      cases hhs : tryAddC hs todo with
      | none => rw [hhs] at heq; cases heq
      | some hs3 =>
        rw [hhs] at heq
        injection heq with hseq
        subst hseq
        have ih := tryAddC_flatten hs todo hs3 hhs
        simp only [flattenAppF_cons]
        exact ((ih.append_left (flattenApp1 h))).trans List.perm_middle

end

/-- **C10.**  `add_to_hierarchy` inserts exactly one node: the flattened
result is a permutation of the new task consed onto the old flattening
(so every previously present node is still present), and the node count
grows by exactly one. -/
theorem add_to_hierarchy_adds_one (hs : List AppHierarchy) (todo : Todo) :
    List.Perm (flattenAppF (add_to_hierarchy hs todo)) (todo :: flattenAppF hs) ∧
    (flattenAppF (add_to_hierarchy hs todo)).length = (flattenAppF hs).length + 1 := by
  have hperm : List.Perm (flattenAppF (add_to_hierarchy hs todo)) (todo :: flattenAppF hs) := by
    unfold add_to_hierarchy
    cases htry : tryAddC hs todo with
    | some hs2 => exact tryAddC_flatten hs todo hs2 htry
    | none =>
      simp only [flattenAppF_append]
      simpa [AppHierarchy.new] using
        (List.perm_append_singleton todo (flattenAppF hs))
  exact ⟨hperm, by simpa using hperm.length_eq⟩

/-! ## Server (src/main.rs): cascade delete via recursive CTE -/

/-- One round of the recursive CTE `todo_hierarchy` in `delete_todo`
(src/main.rs): the ids of rows joined in because their `parent_id` is
already in the set (`UNION` set semantics: rows already collected add
nothing, hence the `!contains` guard). -/
def cteNew (store : List Todo) (s : List Int) : List Int :=
  (store.filter (fun t =>
    (match t.parent_id with
     | some p => s.contains p
     | none => false) && !(s.contains t.id))).map Todo.id

theorem length_filter_lt_of_stronger {l : List Int} {p q : Int → Bool}
    (himp : ∀ a ∈ l, q a = true → p a = true)
    (hex : ∃ a ∈ l, p a = true ∧ q a = false) :
    (l.filter q).length < (l.filter p).length := by
  induction l with
  | nil => obtain ⟨a, ha, _⟩ := hex; cases ha
  | cons a l ih =>
    have hle : ∀ (l' : List Int), (∀ b ∈ l', q b = true → p b = true) →
        (l'.filter q).length ≤ (l'.filter p).length := by
      intro l' himp'
      induction l' with
      | nil => exact Nat.le_refl _
      | cons b l' ihle =>
        have hrest := ihle (fun c hc => himp' c (List.mem_cons_of_mem _ hc))
        cases hqb : q b with
        | true =>
          have hpb := himp' b (List.mem_cons_self _ _) hqb
          simp [List.filter_cons, hqb, hpb]
          omega
        | false =>
          cases hpb : p b with
          | true => simp [List.filter_cons, hqb, hpb]; omega
          | false => simp [List.filter_cons, hqb, hpb]; omega
    rcases hex with ⟨b, hb, hpb, hqb⟩
    rcases List.mem_cons.mp hb with rfl | hbl
    · simp only [List.filter_cons, hpb, hqb]
      have := hle l (fun c hc => himp c (List.mem_cons_of_mem _ hc))
      simp
      omega
    · have ihs := ih (fun c hc => himp c (List.mem_cons_of_mem _ hc)) ⟨b, hbl, hpb, hqb⟩
      cases hqa : q a with
      | true =>
        have hpa := himp a (List.mem_cons_self _ _) hqa
        simp [List.filter_cons, hqa, hpa]
        omega
      | false =>
        cases hpa : p a with
        | true => simp [List.filter_cons, hqa, hpa]; omega
        | false => simp [List.filter_cons, hqa, hpa]; omega

theorem contains_true_iff {l : List Int} {a : Int} : l.contains a = true ↔ a ∈ l := by
  simp

theorem contains_false_iff {l : List Int} {a : Int} : l.contains a = false ↔ a ∉ l := by
  simp

theorem cteNew_measure_lt (store : List Todo) (s : List Int)
    (h : cteNew store s ≠ []) :
    ((store.map Todo.id).filter
        (fun i => !((s ++ (cteNew store s).dedup).contains i))).length
      < ((store.map Todo.id).filter (fun i => !(s.contains i))).length := by
  apply length_filter_lt_of_stronger
  · intro a _ hq
    rw [Bool.not_eq_true'] at hq ⊢
    rw [contains_false_iff] at hq ⊢
    intro ha
    exact hq (List.mem_append_left _ ha)
  · obtain ⟨x, hx⟩ := List.exists_mem_of_ne_nil _ h
    obtain ⟨t, ht, hid⟩ := List.mem_map.mp hx
    have htf := List.mem_filter.mp ht
    have hguard := htf.2
    rw [Bool.and_eq_true] at hguard
    refine ⟨x, List.mem_map.mpr ⟨t, htf.1, hid⟩, ?_, ?_⟩
    · subst hid
      simpa using hguard.2
    · rw [Bool.not_eq_false']
      rw [contains_true_iff]
      exact List.mem_append_right _ (List.mem_dedup.mpr hx)

/-- Saturate the CTE set: repeatedly add ids whose parent is already
collected, until a fixpoint (this is the semantics of the recursive
`WITH RECURSIVE todo_hierarchy` query). -/
def cteSaturate (store : List Todo) (s : List Int) : List Int :=
  if h : cteNew store s = [] then s
  else cteSaturate store (s ++ (cteNew store s).dedup)
termination_by ((store.map Todo.id).filter (fun i => !(s.contains i))).length
decreasing_by
  exact cteNew_measure_lt store s h

theorem cteSaturate_mono : ∀ (store : List Todo) (s : List Int), ∀ x ∈ s,
    x ∈ cteSaturate store s := fun store s => by
  rw [cteSaturate]
  split
  · exact fun x hx => hx
  · intro x hx
    exact cteSaturate_mono store (s ++ (cteNew store s).dedup) x (List.mem_append_left _ hx)
termination_by store s => ((store.map Todo.id).filter (fun i => !(s.contains i))).length
decreasing_by
  exact cteNew_measure_lt store s (by assumption)

/-- The child edge of the store's parent graph: `b` is a row whose
`parent_id` is `a`. -/
def childEdge (store : List Todo) (a b : Int) : Prop :=
  ∃ t ∈ store, t.parent_id = some a ∧ t.id = b

/-- `b` is `a` itself or a transitive descendant of `a` (following
`parent_id` edges downwards). -/
def ReachStar (store : List Todo) (a b : Int) : Prop :=
  Relation.ReflTransGen (childEdge store) a b


theorem cteSaturate_sound : ∀ (store : List Todo) (root : Int) (s : List Int),
    (∀ x ∈ s, ReachStar store root x) →
    ∀ x ∈ cteSaturate store s, ReachStar store root x := fun store root s => by
  rw [cteSaturate]
  split
  · exact fun hs => hs
  · intro hs
    apply cteSaturate_sound store root (s ++ (cteNew store s).dedup)
    intro x hx
    rcases List.mem_append.mp hx with hxs | hxn
    · exact hs x hxs
    · have hxnew : x ∈ cteNew store s := List.mem_dedup.mp hxn
      obtain ⟨t, ht, hid⟩ := List.mem_map.mp hxnew
      have htf := List.mem_filter.mp ht
      have hguard := htf.2
      rw [Bool.and_eq_true] at hguard
      cases hpar : t.parent_id with
      | none => rw [hpar] at hguard; cases hguard.1
      | some p =>
        rw [hpar] at hguard
        have hp : p ∈ s := contains_true_iff.mp hguard.1
        have hreach := hs p hp
        subst hid
        exact Relation.ReflTransGen.tail hreach ⟨t, htf.1, hpar, rfl⟩
termination_by store root s => ((store.map Todo.id).filter (fun i => !(s.contains i))).length
decreasing_by
  exact cteNew_measure_lt store s (by assumption)

theorem cteSaturate_closed : ∀ (store : List Todo) (s : List Int) (t : Todo), t ∈ store →
    ∀ p, t.parent_id = some p → p ∈ cteSaturate store s →
    t.id ∈ cteSaturate store s := fun store s => by
  rw [cteSaturate]
  split
  · intro t ht p hpar hp
    rename_i hnil
    by_contra htid
    have hmem : t.id ∈ cteNew store s := by
      refine List.mem_map.mpr ⟨t, List.mem_filter.mpr ⟨ht, ?_⟩, rfl⟩
      rw [Bool.and_eq_true, hpar]
      refine ⟨contains_true_iff.mpr hp, ?_⟩
      rw [Bool.not_eq_true']
      exact contains_false_iff.mpr htid
    rw [hnil] at hmem
    cases hmem
  · intro t ht p hpar hp
    exact cteSaturate_closed store (s ++ (cteNew store s).dedup) t ht p hpar hp
termination_by store s => ((store.map Todo.id).filter (fun i => !(s.contains i))).length
decreasing_by
  exact cteNew_measure_lt store s (by assumption)

/-- The id set computed by the recursive CTE of `delete_todo`: seeded with
`SELECT id FROM todos WHERE id = $1` (the singleton `{id}` when the row
exists, empty otherwise) and closed under the child join. -/
def cteClosure (store : List Todo) (id : Int) : List Int :=
  cteSaturate store (if (store.map Todo.id).contains id then [id] else [])

theorem mem_cteClosure_iff {store : List Todo} {id : Int}
    (hid : id ∈ store.map Todo.id) (x : Int) :
    x ∈ cteClosure store id ↔ ReachStar store id x := by
  constructor
  · intro hx
    rw [cteClosure] at hx
    refine cteSaturate_sound store id _ ?_ x hx
    intro y hy
    rw [if_pos (contains_true_iff.mpr hid), List.mem_singleton] at hy
    subst hy
    exact Relation.ReflTransGen.refl
  · intro hreach
    induction hreach with
    | refl =>
      refine cteSaturate_mono store _ id ?_
      rw [if_pos (contains_true_iff.mpr hid)]
      exact List.mem_singleton_self _
    | tail hab hedge ih =>
      obtain ⟨t, ht, hpar, hidt⟩ := hedge
      rw [← hidt]
      exact cteSaturate_closed store _ t ht _ hpar ih

/-- The row-not-found error text produced by sqlx's `fetch_one`. -/
def rowNotFoundMsg : String :=
  "no rows returned by a query that expected to return at least one row"

/-- `delete_todo` (src/main.rs), authenticated path: (1) fetch the target
row (`fetch_one`; a missing row surfaces through `internal_error` as
HTTP 500 with the storage error's description); (2) delete the target and
all transitive descendants with one recursive-CTE statement, treating zero
affected rows as HTTP 500 "Could not delete"; (3) on success return the
remaining rows (the route re-fetches them ordered by id — a permutation of
this list; the set of rows is what matters here). -/
def delete_todo (store : List Todo) (id_to_delete : Int) :
    Except (Nat × String) (List Todo) :=
  match store.find? (fun t => t.id == id_to_delete) with
  | none => .error (500, rowNotFoundMsg)
  | some todo_to_delete =>
    let cls := cteClosure store todo_to_delete.id
    let remaining := store.filter (fun t => !(cls.contains t.id))
    let rows_affected := (store.filter (fun t => cls.contains t.id)).length
    if rows_affected > 0 then .ok remaining else .error (500, "Could not delete")

/-- **C5.**  For every store and every existing target id, the cascade
delete succeeds and removes exactly the target together with every task
transitively reachable from it along `parent_id` edges (the full descendant
closure, computed by the recursive CTE); every task outside the closure
remains.  In particular a leaf (no descendants) loses only its own row.
The acyclicity assumption of the claim is not even needed. -/
theorem delete_todo_removes_closure (store : List Todo) (id : Int)
    (hex : ∃ t ∈ store, t.id = id) :
    ∃ remaining, delete_todo store id = .ok remaining ∧
      ∀ u, u ∈ remaining ↔ (u ∈ store ∧ ¬ ReachStar store id u.id) := by
  obtain ⟨t0, ht0, hid0⟩ := hex
  have hsome : (store.find? (fun t : Todo => t.id == id)).isSome := by
    rw [List.find?_isSome]
    exact ⟨t0, ht0, by simp [hid0]⟩
  obtain ⟨tf, htf⟩ := Option.isSome_iff_exists.mp hsome
  have htf_mem : tf ∈ store := List.mem_of_find?_eq_some htf
  have htf_id : tf.id = id := by simpa using List.find?_some htf
  have hid_mem : id ∈ store.map Todo.id := List.mem_map.mpr ⟨tf, htf_mem, htf_id⟩
  refine ⟨store.filter (fun u => !((cteClosure store id).contains u.id)), ?_, ?_⟩
  · simp only [delete_todo, htf, htf_id]
    have hkeep : tf ∈ store.filter (fun u => (cteClosure store id).contains u.id) := by
      refine List.mem_filter.mpr ⟨htf_mem, ?_⟩
      rw [contains_true_iff, htf_id]
      exact (mem_cteClosure_iff hid_mem id).mpr Relation.ReflTransGen.refl
    rw [if_pos (List.length_pos.mpr (List.ne_nil_of_mem hkeep))]
  · intro u
    rw [List.mem_filter]
    constructor
    · rintro ⟨hu, hcu⟩
      rw [Bool.not_eq_true', contains_false_iff] at hcu
      exact ⟨hu, fun hr => hcu ((mem_cteClosure_iff hid_mem u.id).mpr hr)⟩
    · rintro ⟨hu, hr⟩
      refine ⟨hu, ?_⟩
      rw [Bool.not_eq_true', contains_false_iff]
      exact fun hc => hr ((mem_cteClosure_iff hid_mem u.id).mp hc)

def delTaskA : Todo :=
  { id := 1, name := "A", done := false, description := none,
    parent_id := none, date := none }

def delTaskB : Todo :=
  { id := 2, name := "B", done := false, description := none,
    parent_id := some 1, date := none }

def delTaskC : Todo :=
  { id := 3, name := "C", done := false, description := none,
    parent_id := some 2, date := none }

theorem delete_todo_removes_closure_witness :
    ∃ remaining, delete_todo [delTaskA, delTaskB, delTaskC] 2 = .ok remaining ∧
      ∀ u, u ∈ remaining ↔ (u ∈ [delTaskA, delTaskB, delTaskC] ∧
        ¬ ReachStar [delTaskA, delTaskB, delTaskC] 2 u.id) :=
  delete_todo_removes_closure [delTaskA, delTaskB, delTaskC] 2 ⟨delTaskB, by decide, rfl⟩

/-- In `delete_todo`, a nonexistent target id fails through
`internal_error` with HTTP **500** and sqlx's row-not-found description —
not with a NotFound (HTTP 404) error kind: no 404 is ever produced. -/
theorem delete_todo_missing_counterexample :
    delete_todo ([] : List Todo) 1 = .error (500, rowNotFoundMsg) ∧ (500 : Nat) ≠ 404 :=
  ⟨rfl, by decide⟩

/-- **C6 (amended).**  When the target id does not exist the cascade delete
fails with HTTP 500 carrying the storage layer's row-not-found description
(the code has no NotFound error kind); this error is distinct from the
zero-rows-affected error, which is HTTP 500 with body "Could not delete". -/
theorem delete_todo_missing_target (store : List Todo) (id : Int)
    (h : store.find? (fun t => t.id == id) = none) :
    delete_todo store id = .error (500, rowNotFoundMsg) ∧
      rowNotFoundMsg ≠ "Could not delete" := by
  refine ⟨?_, by decide⟩
  simp only [delete_todo, h]

theorem delete_todo_missing_target_witness :
    delete_todo [delTaskA] 99 = .error (500, rowNotFoundMsg) ∧
      rowNotFoundMsg ≠ "Could not delete" :=
  delete_todo_missing_target [delTaskA] 99 rfl

/-! ## Server (src/main.rs): authentication (C8)

`Sha256::digest` is modelled as an arbitrary function `digest` into an
arbitrary hash type; the single property of SHA-256 that the claim rests on
is collision-freedom, taken as an injectivity hypothesis. -/

/-- `authenticate` (src/main.rs): compare the digest of the provided
password against the stored digest. -/
def authenticate {Hash : Type} [DecidableEq Hash] (digest : String → Hash)
    (original_hash : Hash) (provided_pass : String) : Bool :=
  if digest provided_pass = original_hash then true else false

/-- `extract_provided` (src/main.rs): the `password` query parameter when
present, otherwise the value of the `auth` cookie. -/
def extract_provided (query_password : Option String)
    (cookies : List (String × String)) : Option String :=
  (query_password.bind (fun p => some p)).or
    ((cookies.find? (fun c => c.1 == "auth")).map (fun c => c.2))

/-- Lexicographic order on dates, as the SQL `<=` on DATE columns. -/
def dateLE (a b : Date) : Bool :=
  if a.year = b.year then
    (if a.month = b.month then decide (a.day ≤ b.day) else decide (a.month < b.month))
  else decide (a.year < b.year)

def insertById (t : Todo) : List Todo → List Todo
  | [] => [t]
  | u :: us => if t.id ≤ u.id then t :: u :: us else u :: insertById t us

/-- `ORDER BY id` of the SELECT queries. -/
def sortById (l : List Todo) : List Todo := l.foldr insertById []

/-- `get_todos_inner` (src/main.rs): the SELECT with optional date bounds.
Note the Rust `else if date_less.is_some()` branch also captures the case
where *both* bounds are present (the final `BETWEEN` branch is dead code),
and rows with a NULL date never satisfy a date comparison. -/
def get_todos_inner (store : List Todo) (date_less date_more : Option Date) :
    List Todo :=
  match date_less, date_more with
  | none, none => sortById store
  | some dl, _ =>
    sortById (store.filter (fun t => (t.date.map (fun d => dateLE d dl)).getD false))
  | none, some dm =>
    sortById (store.filter (fun t => (t.date.map (fun d => dateLE dm d)).getD false))

/-- `get_todos` (src/main.rs): `provided.is_some_and(|p| authenticate(..))`
guards the SELECT; anything else yields HTTP 401 "Failed authentication". -/
def get_todos {Hash : Type} [DecidableEq Hash] (digest : String → Hash)
    (hashed_password : Hash) (query_password : Option String)
    (cookies : List (String × String)) (store : List Todo)
    (date_less date_more : Option Date) : Except (Nat × String) (List Todo) :=
  match extract_provided query_password cookies with
  | some p =>
    if authenticate digest hashed_password p
    then .ok (get_todos_inner store date_less date_more)
    else .error (401, "Failed authentication")
  | none => .error (401, "Failed authentication")

/-- **C8.**  With a collision-free digest, a request to the `get_todos`
endpoint succeeds exactly when the presented credential — the `password`
query parameter, or else the `auth` cookie — equals the configured shared
password; any other value, or the absence of both, yields HTTP 401
"Failed authentication". -/
theorem get_todos_auth {Hash : Type} [DecidableEq Hash] (digest : String → Hash)
    (hinj : Function.Injective digest) (password : String)
    (query_password : Option String) (cookies : List (String × String))
    (store : List Todo) (date_less date_more : Option Date) :
    get_todos digest (digest password) query_password cookies store date_less date_more
      = if extract_provided query_password cookies = some password
        then .ok (get_todos_inner store date_less date_more)
        else .error (401, "Failed authentication") := by
  cases hep : extract_provided query_password cookies with
  | none =>
    simp only [get_todos, hep]
    rw [if_neg]
    intro hc
    cases hc
  | some p =>
    simp only [get_todos, hep]
    by_cases hp : p = password
    · subst hp
      simp [authenticate]
    · have hne : digest p ≠ digest password := fun hdig => hp (hinj hdig)
      simp [authenticate, hne, hp]

theorem get_todos_auth_witness :
    get_todos (fun s : String => s) "hunter2" (some "hunter2")
        ([] : List (String × String)) ([] : List Todo) none none
      = if extract_provided (some "hunter2") ([] : List (String × String)) = some "hunter2"
        then .ok (get_todos_inner [] none none)
        else .error (401, "Failed authentication") :=
  get_todos_auth (fun s => s) (fun a b hab => hab) "hunter2" (some "hunter2") [] [] none none

/-! ## Order and shape of `build_hierarchy` (C3)

The attach loop walks the collected ids (= reversed input order) and pushes
each parent-found subtree at the *end* of its parent's children list, so
children accumulate in reversed input order — and the children lists are
never reversed back (only the roots list is).  The invariant below tracks,
for a ghost list `P` of already-processed ids, exactly which children every
node holds. -/

/-- The tasks among the processed ids `P` (in processing order) whose
parent is `k`, as resolved through the fixed task table `tOf`. -/
def childrenOfProcessed (tOf : Int → Option Todo) (P : List Int) (k : Int) : List Todo :=
  P.filterMap (fun j =>
    match tOf j with
    | some u => if u.parent_id = some k then some u else none
    | none => none)

/-- The parentless tasks among the processed ids `P`, in processing order. -/
def rootsOfProcessed (tOf : Int → Option Todo) (P : List Int) : List Todo :=
  P.filterMap (fun j =>
    match tOf j with
    | some u =>
      match u.parent_id with
      | none => some u
      | some _ => none
    | none => none)

/-- State invariant of a subtree during the attach loop: every node holds
exactly the already-processed children of its id (in processing order), and
every node strictly below the top has itself been processed. -/
def SubtreeOK (tOf : Int → Option Todo) (P : List Int) : TodoHierarchy → Prop
  | .mk t _ cs =>
    cs.map TodoHierarchy.todo = childrenOfProcessed tOf P t.id
    ∧ ∀ c, c ∈ cs → c.todo.id ∈ P ∧ SubtreeOK tOf P c
termination_by h => sizeOf h
decreasing_by
  have := List.sizeOf_lt_of_mem (by assumption)
  simp only [TodoHierarchy.mk.sizeOf_spec]
  omega

/-- Final shape of a subtree built by `build_hierarchy`: every node's
children are exactly the input tasks whose `parent_id` is that node's id,
in *reverse* input order. -/
def Complete (todos : List Todo) : TodoHierarchy → Prop
  | .mk t _ cs =>
    cs.map TodoHierarchy.todo
      = (todos.filter (fun u => decide (u.parent_id = some t.id))).reverse
    ∧ ∀ c, c ∈ cs → Complete todos c
termination_by h => sizeOf h
decreasing_by
  have := List.sizeOf_lt_of_mem (by assumption)
  simp only [TodoHierarchy.mk.sizeOf_spec]
  omega

theorem childrenOfProcessed_append (tOf : Int → Option Todo) (P Q : List Int) (k : Int) :
    childrenOfProcessed tOf (P ++ Q) k
      = childrenOfProcessed tOf P k ++ childrenOfProcessed tOf Q k := by
  simp [childrenOfProcessed, List.filterMap_append]

theorem rootsOfProcessed_append (tOf : Int → Option Todo) (P Q : List Int) :
    rootsOfProcessed tOf (P ++ Q) = rootsOfProcessed tOf P ++ rootsOfProcessed tOf Q := by
  simp [rootsOfProcessed, List.filterMap_append]

theorem SubtreeOK_extend (tOf : Int → Option Todo) (P : List Int) (j : Int) :
    ∀ (h : TodoHierarchy),
      SubtreeOK tOf P h →
      (∀ u, tOf j = some u → ∀ p, u.parent_id = some p → p ∉ P ∧ p ≠ h.todo.id) →
      SubtreeOK tOf (P ++ [j]) h := by
  intro h
  induction h using TodoHierarchy.my_ind with
  | step t d cs ih =>
    intro hok hnew
    rw [SubtreeOK] at hok ⊢
    obtain ⟨hch, hmem⟩ := hok
    constructor
    · rw [childrenOfProcessed_append, hch]
      have hone : childrenOfProcessed tOf [j] t.id = [] := by
        cases htj : tOf j with
        | none => simp [childrenOfProcessed, htj]
        | some u =>
          cases hpar : u.parent_id with
          | none => simp [childrenOfProcessed, htj, hpar]
          | some p =>
            have hne := (hnew u htj p hpar).2
            simp only [TodoHierarchy.todo_mk] at hne
            simp [childrenOfProcessed, htj, hpar, hne]
      rw [hone, List.append_nil]
    · intro c hc
      obtain ⟨hcid, hcok⟩ := hmem c hc
      refine ⟨List.mem_append_left _ hcid, ?_⟩
      refine ih c hc hcok ?_
      intro u htj p hpar
      obtain ⟨hnP, _⟩ := hnew u htj p hpar
      exact ⟨hnP, fun heq => hnP (heq ▸ hcid)⟩

theorem buildLoop_order (tOf : Int → Option Todo) :
    ∀ (ids P : List Int) (m : TodoMap) (roots : List TodoHierarchy),
      (P ++ ids).Nodup →
      List.Perm (m.map Prod.fst) ids →
      (∀ k v, mapLookup m k = some v →
        v.todo.id = k ∧ tOf k = some v.todo ∧ SubtreeOK tOf P v) →
      (∀ r ∈ roots, r.todo.id ∈ P ∧ SubtreeOK tOf P r) →
      roots.map TodoHierarchy.todo = rootsOfProcessed tOf P →
      ParentsLater (fun k => (tOf k).bind (fun u => u.parent_id)) ids →
      ((buildLoop ids m roots).2.map TodoHierarchy.todo
          = rootsOfProcessed tOf (P ++ ids)
        ∧ ∀ r ∈ (buildLoop ids m roots).2,
            r.todo.id ∈ P ++ ids ∧ SubtreeOK tOf (P ++ ids) r) := by
  intro ids
  induction ids with
  | nil =>
    intro P m roots _ _ _ hroots hrmap _
    simp only [buildLoop, List.append_nil]
    exact ⟨hrmap, hroots⟩
  | cons j rest ih =>
    intro P m roots hnd hkeys hminv hroots hrmap hpl
    obtain ⟨hfirst, hrest⟩ := hpl
    obtain ⟨hPnd, hjrestnd, hdisj⟩ := List.nodup_append.mp hnd
    have hjP : j ∉ P := fun hjmem => hdisj hjmem (List.mem_cons_self _ _)
    have hjrest : j ∉ rest := (List.nodup_cons.mp hjrestnd).1
    have hkeysnd : (m.map Prod.fst).Nodup := (hkeys.nodup_iff).mpr hjrestnd
    have hjid : j ∈ m.map Prod.fst := hkeys.mem_iff.mpr (List.mem_cons_self j rest)
    obtain ⟨hier, hh⟩ := mapLookup_isSome_of_mem hjid
    obtain ⟨hierid, htOfj, hierOK⟩ := hminv j hier hh
    have hperm := swapRemove_perm hh
    have hkperm : List.Perm (j :: (swapRemoveEntries m j).map Prod.fst) (m.map Prod.fst) := by
      simpa using hperm.map Prod.fst
    have hkeys' : List.Perm ((swapRemoveEntries m j).map Prod.fst) rest :=
      (List.perm_cons j).mp (hkperm.trans hkeys)
    have hlook' := mapLookup_swapRemove hkeysnd hh
    have minv' : ∀ k v, mapLookup (swapRemoveEntries m j) k = some v →
        v.todo.id = k ∧ tOf k = some v.todo ∧ SubtreeOK tOf P v := by
      intro k v hkv
      rw [hlook' k] at hkv
      by_cases hkj : k = j
      · rw [if_pos hkj] at hkv; cases hkv
      · rw [if_neg hkj] at hkv; exact hminv k v hkv
    have hnd' : ((P ++ [j]) ++ rest).Nodup := by
      simpa [List.append_assoc] using hnd
    cases hp : hier.todo.parent_id with
    | none =>
      have hextend : ∀ h, SubtreeOK tOf P h → SubtreeOK tOf (P ++ [j]) h := by
        intro h hok
        refine SubtreeOK_extend tOf P j h hok ?_
        intro u htj p hpar
        rw [htOfj] at htj
        injection htj with hu
        rw [← hu, hp] at hpar
        cases hpar
      have hred : buildLoop (j :: rest) m roots
          = buildLoop rest (swapRemoveEntries m j) (roots ++ [hier]) := by
        simp only [buildLoop, hh, hp]
      rw [hred]
      have hroots' : ∀ r ∈ roots ++ [hier],
          r.todo.id ∈ P ++ [j] ∧ SubtreeOK tOf (P ++ [j]) r := by
        intro r hr
        rcases List.mem_append.mp hr with hr | hr
        · obtain ⟨hrid, hrok⟩ := hroots r hr
          exact ⟨List.mem_append_left _ hrid, hextend r hrok⟩
        · rw [List.mem_singleton] at hr
          subst hr
          refine ⟨?_, hextend _ hierOK⟩
          rw [hierid]
          exact List.mem_append_right _ (List.mem_singleton_self _)
      have hrmap' : (roots ++ [hier]).map TodoHierarchy.todo
          = rootsOfProcessed tOf (P ++ [j]) := by
        rw [List.map_append, hrmap, rootsOfProcessed_append]
        have : rootsOfProcessed tOf [j] = [hier.todo] := by
          simp [rootsOfProcessed, htOfj, hp]
        rw [this]
        rfl
      have hminv' : ∀ k v, mapLookup (swapRemoveEntries m j) k = some v →
          v.todo.id = k ∧ tOf k = some v.todo ∧ SubtreeOK tOf (P ++ [j]) v := by
        intro k v hkv
        obtain ⟨h1, h2, h3⟩ := minv' k v hkv
        exact ⟨h1, h2, hextend v h3⟩
      have := ih (P ++ [j]) (swapRemoveEntries m j) (roots ++ [hier])
        hnd' hkeys' hminv' hroots' hrmap' hrest
      simpa [List.append_assoc] using this
    | some pid =>
      have hpid : pid ∈ rest := by
        refine hfirst pid ?_
        show (tOf j).bind (fun u => u.parent_id) = some pid
        rw [htOfj]
        simpa using hp
      have hpidP : pid ∉ P := fun hmem => hdisj hmem (List.mem_cons_of_mem _ hpid)
      have hpidj : pid ≠ j := fun heq => hjrest (heq ▸ hpid)
      have hpidkeys : pid ∈ (swapRemoveEntries m j).map Prod.fst := hkeys'.mem_iff.mpr hpid
      obtain ⟨v0, hv0⟩ := mapLookup_isSome_of_mem hpidkeys
      obtain ⟨v0id, htOfpid, v0OK⟩ := minv' pid v0 hv0
      have hextendS : ∀ h, SubtreeOK tOf P h → pid ≠ h.todo.id →
          SubtreeOK tOf (P ++ [j]) h := by
        intro h hok hne
        refine SubtreeOK_extend tOf P j h hok ?_
        intro u htj p hpar
        rw [htOfj] at htj
        injection htj with hu
        rw [← hu, hp] at hpar
        injection hpar with hppid
        subst hppid
        exact ⟨hpidP, hne⟩
      have hred : buildLoop (j :: rest) m roots
          = buildLoop rest (mapGetMutPush (swapRemoveEntries m j) pid hier) roots := by
        simp only [buildLoop, hh, hp]
      rw [hred]
      have hkeys'' :
          List.Perm ((mapGetMutPush (swapRemoveEntries m j) pid hier).map Prod.fst) rest := by
        rw [mapGetMutPush_keys]; exact hkeys'
      have hminv'' : ∀ k v,
          mapLookup (mapGetMutPush (swapRemoveEntries m j) pid hier) k = some v →
          v.todo.id = k ∧ tOf k = some v.todo ∧ SubtreeOK tOf (P ++ [j]) v := by
        intro k v hkv
        by_cases hkpid : k = pid
        · subst hkpid
          rw [mapGetMutPush_lookup_eq, hv0] at hkv
          have hveq : v0.pushChild hier = v := by simpa using hkv
          subst hveq
          rw [pushChild_todo]
          refine ⟨v0id, htOfpid, ?_⟩
          cases hv0shape : v0 with
          | mk t0 d0 cs0 =>
            rw [hv0shape] at v0OK v0id
            simp only [TodoHierarchy.todo_mk] at v0id
            rw [TodoHierarchy.pushChild_mk, SubtreeOK]
            rw [SubtreeOK] at v0OK
            obtain ⟨hch0, hmem0⟩ := v0OK
            constructor
            · rw [List.map_append, hch0]
              simp only [List.map_cons, List.map_nil, TodoHierarchy.todo_mk]
              rw [childrenOfProcessed_append]
              have hone : childrenOfProcessed tOf [j] t0.id = [hier.todo] := by
                simp [childrenOfProcessed, htOfj, hp, v0id]
              rw [hone]
            · intro c hc
              rcases List.mem_append.mp hc with hc | hc
              · obtain ⟨hcid, hcok⟩ := hmem0 c hc
                refine ⟨List.mem_append_left _ hcid, ?_⟩
                exact hextendS c hcok (fun heq => hpidP (heq ▸ hcid))
              · rw [List.mem_singleton] at hc
                subst hc
                refine ⟨?_, ?_⟩
                · rw [hierid]
                  exact List.mem_append_right _ (List.mem_singleton_self _)
                · exact hextendS _ hierOK (by rw [hierid]; exact hpidj)
        · rw [mapGetMutPush_lookup_ne hier hkpid] at hkv
          obtain ⟨h1, h2, h3⟩ := minv' k v hkv
          refine ⟨h1, h2, hextendS v h3 ?_⟩
          rw [h1]
          exact fun heq => hkpid heq.symm
      have hroots' : ∀ r ∈ roots, r.todo.id ∈ P ++ [j] ∧ SubtreeOK tOf (P ++ [j]) r := by
        intro r hr
        obtain ⟨hrid, hrok⟩ := hroots r hr
        exact ⟨List.mem_append_left _ hrid,
          hextendS r hrok (fun heq => hpidP (heq ▸ hrid))⟩
      have hrmap' : roots.map TodoHierarchy.todo = rootsOfProcessed tOf (P ++ [j]) := by
        rw [hrmap, rootsOfProcessed_append]
        have : rootsOfProcessed tOf [j] = [] := by
          simp [rootsOfProcessed, htOfj, hp]
        rw [this, List.append_nil]
      have := ih (P ++ [j]) (mapGetMutPush (swapRemoveEntries m j) pid hier) roots
        hnd' hkeys'' hminv'' hroots' hrmap' hrest
      simpa [List.append_assoc] using this

theorem mapLookup_entries_inv {l : List Todo} {k : Int} {v : TodoHierarchy}
    (h : mapLookup (l.map entryOf) k = some v) :
    ∃ t ∈ l, t.id = k ∧ v = .mk t (t.date.map convert_date_to_string) [] := by
  induction l with
  | nil => cases h
  | cons u l ih =>
    simp only [List.map_cons, entryOf, mapLookup] at h
    by_cases hu : u.id = k
    · rw [if_pos hu] at h
      injection h with hv
      exact ⟨u, List.mem_cons_self _ _, hu, hv.symm⟩
    · rw [if_neg hu] at h
      obtain ⟨t, ht, hid, hv⟩ := ih h
      exact ⟨t, List.mem_cons_of_mem _ ht, hid, hv⟩

theorem filterMap_ids_eq_filter_children (tOf : Int → Option Todo) (k : Int) :
    ∀ (l : List Todo), (∀ t ∈ l, tOf t.id = some t) →
      (l.map Todo.id).filterMap (fun j =>
        match tOf j with
        | some u => if u.parent_id = some k then some u else none
        | none => none)
        = l.filter (fun u => decide (u.parent_id = some k)) := by
  intro l
  induction l with
  | nil => intro _; rfl
  | cons t l ihl =>
    intro htOf
    simp only [List.map_cons, List.filterMap_cons, htOf t (List.mem_cons_self _ _)]
    rw [ihl (fun u hu => htOf u (List.mem_cons_of_mem _ hu))]
    by_cases hpar : t.parent_id = some k
    · simp [List.filter_cons, hpar]
    · simp [List.filter_cons, hpar]

theorem filterMap_ids_eq_filter_roots (tOf : Int → Option Todo) :
    ∀ (l : List Todo), (∀ t ∈ l, tOf t.id = some t) →
      (l.map Todo.id).filterMap (fun j =>
        match tOf j with
        | some u =>
          match u.parent_id with
          | none => some u
          | some _ => none
        | none => none)
        = l.filter (fun u => u.parent_id.isNone) := by
  intro l
  induction l with
  | nil => intro _; rfl
  | cons t l ihl =>
    intro htOf
    simp only [List.map_cons, List.filterMap_cons, htOf t (List.mem_cons_self _ _)]
    rw [ihl (fun u hu => htOf u (List.mem_cons_of_mem _ hu))]
    cases hpar : t.parent_id with
    | none => simp [List.filter_cons, hpar]
    | some p => simp [List.filter_cons, hpar]

theorem childrenOfProcessed_full (todos : List Todo) (tOf : Int → Option Todo)
    (htOf : ∀ t ∈ todos, tOf t.id = some t) (k : Int) :
    childrenOfProcessed tOf ((todos.map Todo.id).reverse) k
      = (todos.filter (fun u => decide (u.parent_id = some k))).reverse := by
  rw [childrenOfProcessed, List.filterMap_reverse]
  rw [filterMap_ids_eq_filter_children tOf k todos htOf]

theorem rootsOfProcessed_full (todos : List Todo) (tOf : Int → Option Todo)
    (htOf : ∀ t ∈ todos, tOf t.id = some t) :
    rootsOfProcessed tOf ((todos.map Todo.id).reverse)
      = (todos.filter (fun u => u.parent_id.isNone)).reverse := by
  rw [rootsOfProcessed, List.filterMap_reverse]
  rw [filterMap_ids_eq_filter_roots tOf todos htOf]

theorem Complete_of_SubtreeOK (todos : List Todo) (tOf : Int → Option Todo) (P : List Int)
    (hfull : ∀ k, childrenOfProcessed tOf P k
        = (todos.filter (fun u => decide (u.parent_id = some k))).reverse) :
    ∀ h, SubtreeOK tOf P h → Complete todos h := by
  intro h
  induction h using TodoHierarchy.my_ind with
  | step t d cs ih =>
    intro hok
    rw [SubtreeOK] at hok
    rw [Complete]
    obtain ⟨hch, hmem⟩ := hok
    refine ⟨by rw [hch, hfull], ?_⟩
    intro c hc
    exact ih c hc (hmem c hc).2

/-- **C3 (amended).**  For inputs with pairwise-distinct ids in which every
parent occurs strictly earlier than its children, the roots of the forest
returned by `build_hierarchy` are exactly the tasks without `parent_id`,
in the *same* relative order as the input — while the children of every
fixed parent node appear in the *reverse* of their input order (the attach
loop pushes them while walking the reversed input, and only the roots list
is reversed back; see `build_hierarchy_children_order_counterexample`). -/
theorem build_hierarchy_order (todos : List Todo)
    (nd : (todos.map Todo.id).Nodup)
    (hpb : parentsBeforeB todos [] = true) :
    (build_hierarchy todos).map TodoHierarchy.todo
        = todos.filter (fun t => t.parent_id.isNone)
      ∧ ∀ h ∈ build_hierarchy todos, Complete todos h := by
  have ndrev : (todos.reverse.map Todo.id).Nodup := by
    rw [List.map_reverse]
    exact List.nodup_reverse.mpr nd
  have hmap : todos.reverse.foldl
      (fun m todo => mapInsert m todo.id (.mk todo (todo.date.map convert_date_to_string) []))
      ([] : TodoMap) = todos.reverse.map entryOf := by
    have := foldl_mapInsert_entries todos.reverse ([] : TodoMap) (by simpa using ndrev)
    simpa using this
  have hkeys0 : (todos.reverse.map entryOf).map Prod.fst = todos.reverse.map Todo.id := by
    simp [entryOf, List.map_map, Function.comp_def]
  have hbuild : build_hierarchy todos
      = (buildLoop ((todos.reverse.map entryOf).map Prod.fst) (todos.reverse.map entryOf)
          []).2.reverse := by
    simp only [build_hierarchy, hmap]
  set tOf : Int → Option Todo :=
    fun k => (mapLookup (todos.reverse.map entryOf) k).map TodoHierarchy.todo with htOf_def
  have htOf_forward : ∀ t ∈ todos, tOf t.id = some t := by
    intro t ht
    rw [htOf_def]
    simp only []
    rw [mapLookup_entries ndrev (List.mem_reverse.mpr ht)]
    rfl
  have hminv0 : ∀ k v, mapLookup (todos.reverse.map entryOf) k = some v →
      v.todo.id = k ∧ tOf k = some v.todo ∧ SubtreeOK tOf [] v := by
    intro k v hkv
    obtain ⟨t, ht, hid, hv⟩ := mapLookup_entries_inv hkv
    subst hv
    refine ⟨hid, ?_, ?_⟩
    · rw [htOf_def]
      simp only []
      rw [hkv]
      rfl
    · rw [SubtreeOK]
      exact ⟨by simp [childrenOfProcessed], by intro c hc; cases hc⟩
  have hpl : ParentsLater (fun k => (tOf k).bind (fun u => u.parent_id))
      ((todos.reverse.map entryOf).map Prod.fst) := by
    rw [hkeys0, List.map_reverse]
    have := parentsLater_of_parentsBeforeB
      (fun k => (tOf k).bind (fun u => u.parent_id)) todos [] []
      (fun t ht => by
        show (tOf t.id).bind (fun u => u.parent_id) = t.parent_id
        rw [htOf_forward t ht]
        rfl)
      (fun x hx => hx) trivial hpb
    simpa using this
  have hnd0 : (([] : List Int) ++ (todos.reverse.map entryOf).map Prod.fst).Nodup := by
    rw [List.nil_append, hkeys0]
    exact ndrev
  obtain ⟨hrootsmap, hrootsOK⟩ := buildLoop_order tOf
    ((todos.reverse.map entryOf).map Prod.fst) [] (todos.reverse.map entryOf) []
    hnd0 (List.Perm.refl _) hminv0 (by intro r hr; cases hr) rfl hpl
  rw [List.nil_append] at hrootsmap hrootsOK
  have hids_eq : (todos.reverse.map entryOf).map Prod.fst = (todos.map Todo.id).reverse := by
    rw [hkeys0, List.map_reverse]
  rw [hids_eq] at hrootsmap hrootsOK
  have hroots_filter : rootsOfProcessed tOf ((todos.map Todo.id).reverse)
      = (todos.filter (fun u => u.parent_id.isNone)).reverse :=
    rootsOfProcessed_full todos tOf htOf_forward
  constructor
  · rw [hbuild, hids_eq, List.map_reverse, hrootsmap, hroots_filter, List.reverse_reverse]
  · intro h hh
    rw [hbuild, hids_eq, List.mem_reverse] at hh
    refine Complete_of_SubtreeOK todos tOf ((todos.map Todo.id).reverse) ?_ h
      (hrootsOK h hh).2
    intro k
    exact childrenOfProcessed_full todos tOf htOf_forward k

theorem build_hierarchy_order_witness :
    (build_hierarchy [delTaskA, delTaskB, delTaskC]).map TodoHierarchy.todo
        = [delTaskA, delTaskB, delTaskC].filter (fun t => t.parent_id.isNone)
      ∧ ∀ h ∈ build_hierarchy [delTaskA, delTaskB, delTaskC],
          Complete [delTaskA, delTaskB, delTaskC] h :=
  build_hierarchy_order [delTaskA, delTaskB, delTaskC] (by decide) (by decide)

/-! ## C1: an orphan task never appears anywhere in the forest -/

theorem entry_mem_of_mapLookup {m : TodoMap} {k : Int} {v : TodoHierarchy}
    (h : mapLookup m k = some v) : (k, v) ∈ m := by
  induction m with
  | nil => cases h
  | cons e rest ih =>
    obtain ⟨k₁, v₁⟩ := e
    by_cases hk : k₁ = k
    · subst hk
      have hv : v₁ = v := by simpa [mapLookup] using h
      subst hv
      exact List.mem_cons_self _ _
    · simp only [mapLookup, if_neg hk] at h
      exact List.mem_cons_of_mem _ (ih h)

theorem mem_of_mem_mapGetMutPush {m : TodoMap} {k : Int} {c : TodoHierarchy}
    {e : Int × TodoHierarchy} (h : e ∈ mapGetMutPush m k c) :
    e ∈ m ∨ ∃ v, (k, v) ∈ m ∧ e = (k, v.pushChild c) := by
  induction m with
  | nil => cases h
  | cons e₁ rest ih =>
    obtain ⟨k₁, v₁⟩ := e₁
    by_cases hk : k₁ = k
    · subst hk
      have hred : mapGetMutPush ((k₁, v₁) :: rest) k₁ c = (k₁, v₁.pushChild c) :: rest := by
        simp [mapGetMutPush]
      rw [hred] at h
      rcases List.mem_cons.mp h with rfl | hrest
      · exact Or.inr ⟨v₁, List.mem_cons_self _ _, rfl⟩
      · exact Or.inl (List.mem_cons_of_mem _ hrest)
    · have hred : mapGetMutPush ((k₁, v₁) :: rest) k c = (k₁, v₁) :: mapGetMutPush rest k c := by
        simp [mapGetMutPush, hk]
      rw [hred] at h
      rcases List.mem_cons.mp h with rfl | hrest
      · exact Or.inl (List.mem_cons_self _ _)
      · rcases ih hrest with h1 | ⟨v, hv, he⟩
        · exact Or.inl (List.mem_cons_of_mem _ h1)
        · exact Or.inr ⟨v, List.mem_cons_of_mem _ hv, he⟩

/-- Absence invariant of the attach loop: fix a task id `tid` whose parent
key `p` is absent from the map for good.  If `tid` occurs in no root and in
no map entry other than the one keyed `tid` itself, then — since the entry
keyed `tid` is discarded when processed (its parent is never found) — `tid`
never reaches the roots. -/
theorem buildLoop_orphan_absent (tid p : Int) :
    ∀ (ids : List Int) (m : TodoMap) (roots : List TodoHierarchy),
      (m.map Prod.fst).Nodup →
      List.Perm (m.map Prod.fst) ids →
      p ∉ m.map Prod.fst →
      (∀ v, mapLookup m tid = some v → v.todo.parent_id = some p) →
      (∀ e ∈ m, e.1 ≠ tid → tid ∉ (flatten1 e.2).map Todo.id) →
      tid ∉ (flattenF roots).map Todo.id →
      tid ∉ (flattenF (buildLoop ids m roots).2).map Todo.id := by
  intro ids
  induction ids with
  | nil => intro m roots _ _ _ _ _ hC; exact hC
  | cons j rest ih =>
    intro m roots nd hkeys hpB hE hD hC
    have hjid : j ∈ m.map Prod.fst := hkeys.mem_iff.mpr (List.mem_cons_self j rest)
    obtain ⟨hier, hh⟩ := mapLookup_isSome_of_mem hjid
    have hmem_hier : (j, hier) ∈ m := entry_mem_of_mapLookup hh
    have hperm := swapRemove_perm hh
    have hknodup : ((j :: (swapRemoveEntries m j).map Prod.fst)).Nodup := by
      have := keys_nodup_of_perm hperm.symm nd
      simpa using this
    have nd' : ((swapRemoveEntries m j).map Prod.fst).Nodup := (List.nodup_cons.mp hknodup).2
    have hkperm : List.Perm (j :: (swapRemoveEntries m j).map Prod.fst) (m.map Prod.fst) := by
      simpa using hperm.map Prod.fst
    have hkeys' : List.Perm ((swapRemoveEntries m j).map Prod.fst) rest :=
      (List.perm_cons j).mp (hkperm.trans hkeys)
    have hpB' : p ∉ (swapRemoveEntries m j).map Prod.fst := by
      intro hmem
      exact hpB ((hkperm.mem_iff).mp (List.mem_cons_of_mem _ hmem))
    have hE' : ∀ v, mapLookup (swapRemoveEntries m j) tid = some v →
        v.todo.parent_id = some p := by
      intro v hv
      rw [mapLookup_swapRemove nd hh tid] at hv
      by_cases htidj : tid = j
      · rw [if_pos htidj] at hv; cases hv
      · rw [if_neg htidj] at hv; exact hE v hv
    have hm'sub : ∀ e ∈ swapRemoveEntries m j, e ∈ m := by
      intro e he
      exact hperm.subset (List.mem_cons_of_mem _ he)
    have hD' : ∀ e ∈ swapRemoveEntries m j, e.1 ≠ tid →
        tid ∉ (flatten1 e.2).map Todo.id := by
      intro e he hetid
      exact hD e (hm'sub e he) hetid
    cases hp : hier.todo.parent_id with
    | none =>
      have hjtid : j ≠ tid := by
        intro heq
        subst heq
        have := hE hier hh
        rw [hp] at this
        cases this
      have hred : buildLoop (j :: rest) m roots
          = buildLoop rest (swapRemoveEntries m j) (roots ++ [hier]) := by
        simp only [buildLoop, hh, hp]
      rw [hred]
      refine ih (swapRemoveEntries m j) (roots ++ [hier]) nd' hkeys' hpB' hE' hD' ?_
      rw [flattenF_append, List.map_append]
      intro hmem
      rcases List.mem_append.mp hmem with h1 | h2
      · exact hC h1
      · simp only [flattenF_cons, flattenF_nil, List.append_nil] at h2
        exact hD (j, hier) hmem_hier hjtid h2
    | some pid =>
      have hred : buildLoop (j :: rest) m roots
          = buildLoop rest (mapGetMutPush (swapRemoveEntries m j) pid hier) roots := by
        simp only [buildLoop, hh, hp]
      rw [hred]
      refine ih (mapGetMutPush (swapRemoveEntries m j) pid hier) roots ?_ ?_ ?_ ?_ ?_ hC
      · rw [mapGetMutPush_keys]; exact nd'
      · rw [mapGetMutPush_keys]; exact hkeys'
      · rw [mapGetMutPush_keys]; exact hpB'
      · intro v hv
        by_cases hpidtid : pid = tid
        · subst hpidtid
          rw [mapGetMutPush_lookup_eq] at hv
          cases hlv : mapLookup (swapRemoveEntries m j) pid with
          | none => rw [hlv] at hv; cases hv
          | some v0 =>
            rw [hlv] at hv
            have hveq : v0.pushChild hier = v := by simpa using hv
            subst hveq
            rw [pushChild_todo]
            exact hE' v0 hlv
        · rw [mapGetMutPush_lookup_ne hier (fun heq => hpidtid heq.symm)] at hv
          exact hE' v hv
      · intro e he hetid
        rcases mem_of_mem_mapGetMutPush he with he' | ⟨v0, hv0mem, rfl⟩
        · exact hD' e he' hetid
        · show tid ∉ (flatten1 (v0.pushChild hier)).map Todo.id
          rw [flatten1_pushChild, List.map_append]
          intro hmem
          rcases List.mem_append.mp hmem with h1 | h2
          · exact hD' (pid, v0) hv0mem hetid h1
          · by_cases hjtid : j = tid
            · subst hjtid
              have hpeq := hE hier hh
              rw [hp] at hpeq
              have hpidp : pid = p := by injection hpeq
              have hpidmem : pid ∈ (swapRemoveEntries m j).map Prod.fst :=
                List.mem_map.mpr ⟨(pid, v0), hv0mem, rfl⟩
              rw [hpidp] at hpidmem
              exact hpB' hpidmem
            · exact hD (j, hier) hmem_hier hjtid h2

/-- **C1 (amended).**  For inputs with pairwise-distinct ids: a task whose
`parent_id` is present but refers to an id that does not occur in the input
appears nowhere in the forest returned by `build_hierarchy` — no node of
any tree of the forest carries its id, so it is neither a root nor a child
(it is silently discarded) — and every root of the returned forest is a
task with no `parent_id`. -/
theorem build_hierarchy_orphan_never_appears (todos : List Todo)
    (nd : (todos.map Todo.id).Nodup) :
    (∀ h ∈ build_hierarchy todos, h.todo.parent_id = none) ∧
    (∀ t ∈ todos, ∀ p, t.parent_id = some p → p ∉ todos.map Todo.id →
      t.id ∉ (flattenF (build_hierarchy todos)).map Todo.id) := by
  refine ⟨build_hierarchy_root_has_no_parent todos, ?_⟩
  intro t ht p hpar hpabs
  have ndrev : (todos.reverse.map Todo.id).Nodup := by
    rw [List.map_reverse]
    exact List.nodup_reverse.mpr nd
  have hmap : todos.reverse.foldl
      (fun m todo => mapInsert m todo.id (.mk todo (todo.date.map convert_date_to_string) []))
      ([] : TodoMap) = todos.reverse.map entryOf := by
    have := foldl_mapInsert_entries todos.reverse ([] : TodoMap) (by simpa using ndrev)
    simpa using this
  have hkeys0 : (todos.reverse.map entryOf).map Prod.fst = todos.reverse.map Todo.id := by
    simp [entryOf, List.map_map, Function.comp_def]
  have hbuild : build_hierarchy todos
      = (buildLoop ((todos.reverse.map entryOf).map Prod.fst) (todos.reverse.map entryOf)
          []).2.reverse := by
    simp only [build_hierarchy, hmap]
  have habsent := buildLoop_orphan_absent t.id p
    ((todos.reverse.map entryOf).map Prod.fst) (todos.reverse.map entryOf) []
    (by rw [hkeys0]; exact ndrev)
    (List.Perm.refl _)
    (by
      rw [hkeys0, List.map_reverse]
      intro hmem
      exact hpabs (List.mem_reverse.mp hmem))
    (by
      intro v hv
      rw [mapLookup_entries ndrev (List.mem_reverse.mpr ht)] at hv
      have hveq : TodoHierarchy.mk t (t.date.map convert_date_to_string) [] = v := by
        simpa using hv
      rw [← hveq]
      exact hpar)
    (by
      intro e he hetid
      obtain ⟨u, _, rfl⟩ := List.mem_map.mp he
      intro hmem
      simp only [entryOf, flatten1_mk, flattenF_nil, List.map_cons, List.map_nil,
        List.mem_singleton] at hmem
      exact hetid hmem.symm)
    (by intro hmem; cases hmem)
  rw [hbuild]
  intro hmem
  apply habsent
  have hpermF : List.Perm
      (flattenF ((buildLoop ((todos.reverse.map entryOf).map Prod.fst)
        (todos.reverse.map entryOf) []).2.reverse))
      (flattenF ((buildLoop ((todos.reverse.map entryOf).map Prod.fst)
        (todos.reverse.map entryOf) []).2)) :=
    flattenF_perm (List.reverse_perm _)
  exact ((hpermF.map Todo.id).mem_iff).mp hmem

/-- Orphan with a collected child: X's parent id 99 is absent, Y is X's
child; X is discarded (and with it the collected Y). -/
def orphanedParentX : Todo :=
  { id := 10, name := "X", done := false, description := none,
    parent_id := some 99, date := none }

def orphanChildY : Todo :=
  { id := 11, name := "Y", done := false, description := none,
    parent_id := some 10, date := none }

theorem build_hierarchy_orphan_never_appears_witness :
    orphanedParentX.id ∉
      (flattenF (build_hierarchy [soleRootTask, orphanedParentX, orphanChildY])).map Todo.id :=
  (build_hierarchy_orphan_never_appears [soleRootTask, orphanedParentX, orphanChildY]
      (by decide)).2
    orphanedParentX (by decide) 99 rfl (by decide)
